import Mathlib

/-!
# aws-ami-share: selection, validation, session cache and plan pipeline

A shallow embedding of the Go sources `common/image.go`, `common/config.go`,
`core/ami.go`, `core/share.go`, `core/account.go` and `utils/aws.go`.
The definitions come first; the theorems follow, the one that settles a
claim `Cn` of the specification naming it in its doc comment.

Conventions of the embedding:

* a Go `string` is a Lean `String`; `fmt.Sprintf` with `%s` verbs is string
  concatenation;
* a Go `map[K]V` is a list of key/value pairs with distinct keys; the order of
  the list stands for the (unspecified) order in which `range` visits the map;
* a Go pointer that may be `nil` is an `Option`;
* a `time.Time` is its instant, an integer;
* calls into the AWS SDK are answered by an explicit environment, and every
  such call is recorded in a trace.
-/

namespace AmiShare

/-! ## Go maps -/

namespace GoMap

/-- The keys of a map, in iteration order. -/
def keys {κ ν : Type} (m : List (κ × ν)) : List κ := m.map Prod.fst

/-- The comma-ok lookup `v, ok := m[k]`. -/
def get? {κ ν : Type} [DecidableEq κ] (m : List (κ × ν)) (k : κ) : Option ν :=
  (m.find? (fun e => decide (e.1 = k))).map Prod.snd

/-- The assignment `m[k] = v`: any previous entry of `k` is replaced. -/
def set {κ ν : Type} [DecidableEq κ] (m : List (κ × ν)) (k : κ) (v : ν) : List (κ × ν) :=
  m.filter (fun e => !decide (e.1 = k)) ++ [(k, v)]

end GoMap

/-! ## Strings and time -/

/-- Go `strings.HasPrefix`. -/
def HasPrefix (s p : String) : Bool := p.toList.isPrefixOf s.toList

/-- Go `unicode.IsSpace`. -/
def isSpace (c : Char) : Bool :=
  let n := c.toNat
  (9 ≤ n && n ≤ 13) || n == 0x20 || n == 0x85 || n == 0xA0 || n == 0x1680 ||
  (0x2000 ≤ n && n ≤ 0x200A) || n == 0x2028 || n == 0x2029 || n == 0x202F ||
  n == 0x205F || n == 0x3000

/-- Go `strings.TrimSpace`: leading and trailing white space removed. -/
def TrimSpace (s : String) : String :=
  String.mk ((s.toList.dropWhile isSpace).reverse.dropWhile isSpace).reverse

/-- A Go `time.Time`, as its instant. -/
abbrev Time := Int

/-- Go `Time.Before`. -/
def Before (t u : Time) : Bool := decide (t < u)

/-! ## `common/config.go`: data model -/

structure Filter where
  Property : String
  Value : String
  Invert : Bool
deriving DecidableEq, Repr

structure AMISelection where
  Copy : Bool
  Regions : List String
  Filters : List Filter
deriving DecidableEq, Repr

structure Account where
  ID : String
  Alias : String
  AssumeRole : String
  PostShareTags : List (String × String)
  Regions : List String
  AMIs : List (String × AMISelection)
deriving DecidableEq, Repr

structure Config where
  regions : List String
  SourceAccount : Account
  TargetAccounts : List Account
deriving DecidableEq, Repr

/-! ## `types.Properties` of the aws-nuke library

`core/ami.go` builds the property view of an image with the package
`github.com/rebuy-de/aws-nuke/pkg/types`, a dependency of the repository. The
four functions it calls are embedded here as that package defines them:
`Properties` is a `map[string]string`; `Set` stores a value under a key and
ignores a `nil` value; `SetTag` ignores a `nil` or blank key and otherwise
stores the value under the key `"tag:"` followed by the trimmed tag key, so
that tags and the other properties of a resource cannot collide; `Get`
returns `""` for an absent key. -/

/-- The library type `types.Properties`, a `map[string]string`. -/
abbrev Properties := List (String × String)

/-- Library `types.NewProperties`. -/
def NewProperties : Properties := []

/-- Library `Properties.Set` at a string or `*string` value: a `nil` value
leaves the map as it is, any other value is stored under `key`. -/
def Properties.Set (p : Properties) (key : String) (value : Option String) : Properties :=
  match value with
  | none => p
  | some v => GoMap.set p key v

/-- Library `Properties.SetTag`: a `nil` key or a key that is blank after
`strings.TrimSpace` leaves the map as it is; otherwise the value is stored
under `"tag:"` followed by the trimmed key. -/
def Properties.SetTag (p : Properties) (tagKey : Option String) (tagValue : Option String) :
    Properties :=
  match tagKey with
  | none => p
  | some k =>
    let keyStr := TrimSpace k
    if keyStr = "" then p else p.Set ("tag:" ++ keyStr) tagValue

/-- Library `Properties.Get`: the stored value, or `""` for an absent key. -/
def Properties.Get (p : Properties) (key : String) : String :=
  match GoMap.get? p key with
  | some value => value
  | none => ""

/-! ## `core/ami.go`: the EC2 image -/

/-- An `ec2.Tag`: key and value are `*string`. -/
structure Tag where
  Key : Option String
  Value : Option String
deriving DecidableEq, Repr

/-- A `*session.Session`, by identity. -/
abbrev Session := Nat

structure EC2Image where
  svc : Option Session
  id : String
  date : Time
  dateStr : String
  name : String
  tags : List Tag
  tagsStr : String
  snapshots : List String
  snapshotTags : List (String × List Tag)
deriving DecidableEq, Repr

def EC2Image.Properties (e : EC2Image) : AmiShare.Properties :=
  let properties := NewProperties
  let properties :=
    e.tags.foldl (fun (p : AmiShare.Properties) tagValue => p.SetTag tagValue.Key tagValue.Value)
      properties
  let properties := properties.Set "ID" (some e.id)
  properties.Set "AMIName" (some e.name)

def EC2Image.Date (e : EC2Image) : Time := e.date

def EC2Image.Match (e : EC2Image) (filter : Filter) : Bool :=
  let resourceValue := e.Properties.Get filter.Property
  if filter.Invert then
    decide (resourceValue ≠ filter.Value)
  else
    decide (resourceValue = filter.Value)

/-! ## `common/image.go`: the image interface and the selection filter -/

/-- The part of the Go interface `Image` that the selection filter calls. -/
class Image (α : Type) where
  Date : α → Time
  Match : α → Filter → Bool

instance : Image EC2Image where
  Date := EC2Image.Date
  Match := EC2Image.Match

/-- `Images.Less`, on two elements of the slice. -/
def Less {α : Type} [Image α] (a b : α) : Bool := Before (Image.Date a) (Image.Date b)

/-- The inner loop of `ApplyFilters`: `matches = matches && image.Match(filter)`. -/
def matchesAll {α : Type} [Image α] (image : α) (filters : List Filter) : Bool :=
  filters.foldl (fun matched filter => matched && Image.Match image filter) true

/-- The first loop of `ApplyFilters`: the matching images, in input order. -/
def matching {α : Type} [Image α] (images : List α) (filters : List Filter) : List α :=
  images.foldl (fun result image => if matchesAll image filters then result ++ [image] else result) []

/-- `ApplyFilters`; `sort` stands for the standard library's `sort.Sort` on
`Images`. -/
def ApplyFilters {α : Type} [Image α] (sort : List α → List α) (images : List α)
    (filters : List Filter) : List α :=
  let result := sort (matching images filters)
  if h : 0 < result.length then
    [result.get ⟨result.length - 1, Nat.sub_lt h Nat.one_pos⟩]
  else
    result

/-- The contract of `sort.Sort` for `Images`: the result is a rearrangement of
the input in which no element is `Less` than an element before it. -/
structure SortsByLess {α : Type} [Image α] (sort : List α → List α) : Prop where
  perm : ∀ l, (sort l).Perm l
  ordered : ∀ l, (sort l).Pairwise (fun a b => Less b a = false)

/-- The inner loop of the standard library's `insertionSort`: the new element
moves left past every element it is `Less` than. The sorted part is held
in reverse. -/
def sinkLeft {α : Type} [Image α] (x : α) : List α → List α
  | [] => [x]
  | y :: ys => if Less x y then y :: sinkLeft x ys else x :: y :: ys

/-- The standard library's `insertionSort`, the path `sort.Sort` takes on
short slices. -/
def insertionSort {α : Type} [Image α] (l : List α) : List α :=
  (l.foldl (fun sorted x => sinkLeft x sorted) []).reverse

/-! ## `common/config.go`: validation, role ARNs and the region set -/

/-- The loop of `Config.Validate` over the target accounts: the first error,
or `none` when every account passes. -/
def validateTargets : List Account → Option String
  | [] => none
  | account :: rest =>
    if account.AMIs.length < 1 then
      some ("account [" ++ account.Alias ++ "] does not have any AMIs: required at least one")
    else if 0 < account.PostShareTags.length then
      some ("post-share-tags not allowed here: account [" ++ account.Alias ++ "]")
    else if account.AssumeRole = "" then
      some ("assume-role must be specified on [" ++ account.Alias ++ "]")
    else
      validateTargets rest

/-- `Account.GenerateRoleARN`; the account after the call. -/
def Account.GenerateRoleARN (account : Account) : Account :=
  if !HasPrefix account.AssumeRole "arn:aws:iam::" then
    { account with
      AssumeRole := "arn:aws:iam::" ++ account.ID ++ ":role/" ++ account.AssumeRole }
  else
    account

/-- `Config.CreateRoleARNs`; the configuration after the call. -/
def Config.CreateRoleARNs (config : Config) : Config :=
  { config with
    SourceAccount := config.SourceAccount.GenerateRoleARN
    TargetAccounts := config.TargetAccounts.map Account.GenerateRoleARN }

/-- `Config.Validate`: the returned error, or the configuration as the call
leaves it. -/
def Config.Validate (config : Config) : Except String Config :=
  if 0 < config.SourceAccount.Regions.length ∨ 0 < config.SourceAccount.AMIs.length then
    .error "fields [regions] and/or [amis] not allowed on registry account"
  else if config.SourceAccount.AssumeRole = "" then
    .error "assume-role must be specified on source account"
  else
    match validateTargets config.TargetAccounts with
    | some err => .error err
    | none => .ok config.CreateRoleARNs

/-- The set `uniqueRegionsMap` that `Config.ScanRegions` fills, a
`map[string]struct{}`. -/
def uniqueRegionsMap (config : Config) : List (String × Unit) :=
  config.TargetAccounts.foldl
    (fun m account =>
      let m := account.Regions.foldl (fun m region => GoMap.set m region ()) m
      account.AMIs.foldl
        (fun m amis => amis.2.Regions.foldl (fun m region => GoMap.set m region ()) m) m)
    []

/-- `Config.ScanRegions`: the returned list and the configuration after the
call. `visit` is the order in which the runtime ranges over the keys of
`uniqueRegionsMap`. -/
def Config.ScanRegions (visit : List String → List String) (config : Config) :
    List String × Config :=
  if 0 < config.regions.length then
    (config.regions, config)
  else
    let regions :=
      (visit (GoMap.keys (uniqueRegionsMap config))).foldl (fun regions region => regions ++ [region]) []
    (regions, { config with regions := regions })

/-- The group's own regions, or the account's when the group has none: the
choice of `groupRegions` in `FilterAMIs`. -/
def groupRegions (account : Account) (ami : AMISelection) : List String :=
  if ami.Regions.length < 1 then account.Regions else ami.Regions

/-! ## `core/share.go`: filtering the source inventory -/

abbrev ImagesByRegion (α : Type) := List (String × List α)

abbrev ImagesByGroup (α : Type) := List (String × ImagesByRegion α)

/-- The index expression `sourceImages[region]`: `nil` for an absent key. -/
def imagesAt {α : Type} (sourceImages : ImagesByRegion α) (region : String) : List α :=
  match GoMap.get? sourceImages region with
  | some images => images
  | none => []

/-- The inner loop of `FilterAMIs`: the `regionImages` of one group. -/
def filterRegions {α : Type} [Image α] (sort : List α → List α)
    (sourceImages : ImagesByRegion α) (regions : List String) (filters : List Filter) :
    ImagesByRegion α :=
  regions.foldl
    (fun regionImages region =>
      GoMap.set regionImages region (ApplyFilters sort (imagesAt sourceImages region) filters))
    []

/-- `AWSShareAMI.FilterAMIs` (its error result is always `nil`). -/
def FilterAMIs {α : Type} [Image α] (sort : List α → List α)
    (sourceImages : ImagesByRegion α) (account : Account) : ImagesByGroup α :=
  account.AMIs.foldl
    (fun groupedImages entry =>
      GoMap.set groupedImages entry.1
        (filterRegions sort sourceImages (groupRegions account entry.2) entry.2.Filters))
    []

/-! ## The AWS SDK and the file system, as an environment -/

/-- The calls the program makes on the outside world. -/
inductive Event where
  | NewSession (region : String) (assume : Option (Session × String))
  | GetCallerIdentity (sess : Option Session)
  | ListAccountAliases (sess : Option Session)
  | DescribeImages (svc : Option Session)
  | DescribeTags (svc : Option Session) (resourceId : String)
  | ModifyImageAttribute (svc : Option Session) (imageId : String) (userId : String)
  | ModifySnapshotAttribute (svc : Option Session) (snapshotId : String) (userId : String)
  | CreateTags (svc : Option Session) (resource : String) (tags : List Tag)
  | WriteFile (path : String) (raw : String)
deriving DecidableEq, Repr

/-- The calls that change remote state: sharing an image or a snapshot
(attribute modification) and tagging. -/
def Event.mutating : Event → Bool
  | .ModifyImageAttribute _ _ _ => true
  | .ModifySnapshotAttribute _ _ _ => true
  | .CreateTags _ _ _ => true
  | _ => false

/-- An `ec2.EbsBlockDevice`. -/
structure EbsBlockDevice where
  SnapshotId : Option String
deriving DecidableEq, Repr

/-- An `ec2.BlockDeviceMapping`. -/
structure BlockDeviceMapping where
  Ebs : Option EbsBlockDevice
deriving DecidableEq, Repr

/-- An `ec2.Image` of a `DescribeImages` response; the three strings are the
ones `ListAMIs` dereferences. -/
structure ImageDescription where
  BlockDeviceMappings : List (Option BlockDeviceMapping)
  Tags : List Tag
  CreationDate : String
  ImageId : String
  Name : String
deriving DecidableEq, Repr

/-- An `ec2.TagDescription`. -/
structure TagDescription where
  Key : Option String
  Value : Option String
deriving DecidableEq, Repr

structure AMISharePlanAccount where
  ID : String
  Alias : String
  AssumeRole : String
  AMIs : ImagesByGroup EC2Image
deriving DecidableEq, Repr

structure AMISharePlan where
  SourceAccount : AMISharePlanAccount
  TargetAccounts : List AMISharePlanAccount
deriving DecidableEq, Repr

/-- The answers of the outside world. Every remote call is answered from the
calls made so far and its own arguments; an `Option String` answer is the
returned `error`. -/
structure SDK where
  NewSession : List Event → String → Option (Session × String) → Option Session × Option String
  GetCallerIdentity : List Event → Option Session → Except String (Option String)
  ListAccountAliases : List Event → Option Session → Except String (List (Option String))
  DescribeImages : List Event → Option Session → Except String (List ImageDescription)
  DescribeTags : List Event → Option Session → String → Except String (List TagDescription)
  ModifyImageAttribute : List Event → Option Session → String → String → Option String
  ModifySnapshotAttribute : List Event → Option Session → String → String → Option String
  CreateTags : List Event → Option Session → String → List Tag → Option String
  WriteFile : List Event → String → String → Option String
  Marshal : AMISharePlan → String × Option String
  ParseTime : String → Time
  visit : List String → List String

/-! ## `utils/aws.go`: the session factory -/

structure SessionKey where
  AccountID : String
  AssumeRole : String
  Region : String
deriving DecidableEq, Repr

structure AWSSessionFactory where
  MasterSession : Option Session
  SessionCache : List (SessionKey × Option Session)
deriving DecidableEq, Repr

/-- The mutable objects of a run, and the calls made so far. -/
structure World where
  Config : Config
  sessionFactory : AWSSessionFactory
  trace : List Event
deriving DecidableEq, Repr

def NewAWSSessionFactory : AWSSessionFactory :=
  { MasterSession := none, SessionCache := [] }

/-- `AWSSessionFactory.GenerateMasterSession`. -/
def GenerateMasterSession (sdk : SDK) (w : World) (sessionKey : SessionKey) :
    (Option Session × Option String) × World :=
  let r := sdk.NewSession w.trace sessionKey.Region none
  (r, { w with
        sessionFactory := { w.sessionFactory with MasterSession := r.1 }
        trace := w.trace ++ [Event.NewSession sessionKey.Region none] })

/-- `AWSSessionFactory.GetSession`: the pair `(sess, err)` it returns and the
world after the call. -/
def GetSession (sdk : SDK) (w : World) (sessionKey : SessionKey) :
    (Option Session × Option String) × World :=
  match GoMap.get? w.sessionFactory.SessionCache sessionKey with
  | some sess => ((sess, none), w)
  | none =>
    match w.sessionFactory.MasterSession with
    | none => ((none, some "master session not initialized - required to assume role"), w)
    | some master =>
      let assume := some (master, sessionKey.AssumeRole)
      let r := sdk.NewSession w.trace sessionKey.Region assume
      let w := { w with trace := w.trace ++ [Event.NewSession sessionKey.Region assume] }
      match r.2 with
      | some err => ((r.1, some err), w)
      | none =>
        ((r.1, none),
          { w with
            sessionFactory :=
              { w.sessionFactory with
                SessionCache := GoMap.set w.sessionFactory.SessionCache sessionKey r.1 } })

/-- What a run does between two uses of the session factory: the two
operations of the factory, and any other call on the outside world. -/
inductive FactoryOp where
  | generateMaster (sessionKey : SessionKey)
  | getSession (sessionKey : SessionKey)
  | remote (call : Event)
deriving DecidableEq, Repr

/-- The world after one such step. -/
def FactoryOp.run (sdk : SDK) (w : World) : FactoryOp → World
  | .generateMaster sessionKey => (GenerateMasterSession sdk w sessionKey).2
  | .getSession sessionKey => (GetSession sdk w sessionKey).2
  | .remote call => { w with trace := w.trace ++ [call] }

/-- The world after a sequence of such steps. -/
def runOps (sdk : SDK) (w : World) (ops : List FactoryOp) : World :=
  ops.foldl (FactoryOp.run sdk) w

/-! ## `core/ami.go`: listing, sharing and tagging -/

def ShareWithPrefix : String := "ShareWith"

def All : String := "all"

def DefaultRegion : String := "us-east-1"

/-- SDK helper `aws.StringValue`: `""` for a `nil` pointer. -/
def StringValue (v : Option String) : String :=
  match v with
  | some s => s
  | none => ""

/-- The loop of `ListAMIs` over an image's tags: the tags whose key does not
start with `ShareWithPrefix`. -/
def filterImageTags (tags : List Tag) : List Tag :=
  tags.foldl
    (fun filteredTags tag =>
      if HasPrefix (StringValue tag.Key) ShareWithPrefix then filteredTags
      else filteredTags ++ [tag])
    []

/-- The loop of `ListAMIs` over the tag descriptions of a snapshot. -/
def filterSnapshotTags (tagsOutput : List TagDescription) : List Tag :=
  tagsOutput.foldl
    (fun tags tagDesc =>
      if HasPrefix (StringValue tagDesc.Key) ShareWithPrefix then tags
      else tags ++ [{ Key := tagDesc.Key, Value := tagDesc.Value }])
    []

/-- The loop of `ListAMIs` over the block devices of one image: the error of
a failed `DescribeTags`, the snapshots, their tags, and the calls made. -/
def scanBlockDevices (sdk : SDK) (svc : Option Session) :
    List (Option BlockDeviceMapping) → List String → List (String × List Tag) → List Event →
    Option String × List String × List (String × List Tag) × List Event
  | [], snapshots, snapshotTags, trace => (none, snapshots, snapshotTags, trace)
  | blockDevice :: rest, snapshots, snapshotTags, trace =>
    match blockDevice.bind BlockDeviceMapping.Ebs with
    | none => scanBlockDevices sdk svc rest snapshots snapshotTags trace
    | some ebs =>
      let snapshotId := StringValue ebs.SnapshotId
      let snapshots := snapshots ++ [snapshotId]
      let tagsOutput := sdk.DescribeTags trace svc snapshotId
      let trace := trace ++ [Event.DescribeTags svc snapshotId]
      match tagsOutput with
      | .error err => (some err, snapshots, snapshotTags, trace)
      | .ok tagsOutput =>
        scanBlockDevices sdk svc rest snapshots
          (GoMap.set snapshotTags snapshotId (filterSnapshotTags tagsOutput)) trace

/-- The loop of `ListAMIs` over the images of the response. -/
def listImages (sdk : SDK) (svc : Option Session) :
    List ImageDescription → List EC2Image → List Event →
    (List EC2Image × Option String) × List Event
  | [], images, trace => ((images, none), trace)
  | out :: rest, images, trace =>
    match scanBlockDevices sdk svc out.BlockDeviceMappings [] [] trace with
    | (some err, _, _, trace) => ((images, some err), trace)
    | (none, snapshots, snapshotTags, trace) =>
      listImages sdk svc rest
        (images ++
          [{ svc := svc
             date := sdk.ParseTime out.CreationDate
             dateStr := out.CreationDate
             id := out.ImageId
             name := out.Name
             tags := filterImageTags out.Tags
             tagsStr := ""
             snapshots := snapshots
             snapshotTags := snapshotTags }])
        trace

/-- `ListAMIs`: the pair `(images, err)` and the calls made. -/
def ListAMIs (sdk : SDK) (sess : Option Session) (trace : List Event) :
    (List EC2Image × Option String) × List Event :=
  let resp := sdk.DescribeImages trace sess
  let trace := trace ++ [Event.DescribeImages sess]
  match resp with
  | .error err => (([], some err), trace)
  | .ok images => listImages sdk sess images [] trace

/-- One `CreateTags` call per resource, stopping at the first error. -/
def createTagsEach (sdk : SDK) (svc : Option Session) :
    List (String × List Tag) → List Event → Option String × List Event
  | [], trace => (none, trace)
  | (resource, tags) :: rest, trace =>
    let err := sdk.CreateTags trace svc resource tags
    let trace := trace ++ [Event.CreateTags svc resource tags]
    match err with
    | some e => (some e, trace)
    | none => createTagsEach sdk svc rest trace

/-- `EC2Image.CopyTags`. -/
def EC2Image.CopyTags (sdk : SDK) (e : EC2Image) (sess : Option Session) (shareSnapshots : Bool)
    (trace : List Event) : Option String × List Event :=
  let svc := sess
  let err := sdk.CreateTags trace svc e.id e.tags
  let trace := trace ++ [Event.CreateTags svc e.id e.tags]
  match err with
  | some err => (some err, trace)
  | none =>
    if shareSnapshots then createTagsEach sdk svc e.snapshotTags trace
    else (none, trace)

/-- `EC2Image.AddTags`. -/
def EC2Image.AddTags (sdk : SDK) (e : EC2Image) (tags : List (String × String))
    (tagSnapshots : Bool) (trace : List Event) : Option String × List Event :=
  let awsTags : List Tag :=
    tags.foldl (fun awsTags kv => awsTags ++ [{ Key := some kv.1, Value := some kv.2 }]) []
  let err := sdk.CreateTags trace e.svc e.id awsTags
  let trace := trace ++ [Event.CreateTags e.svc e.id awsTags]
  match err with
  | some err => (some err, trace)
  | none =>
    if tagSnapshots then
      createTagsEach sdk e.svc (e.snapshots.map (fun snapshotId => (snapshotId, awsTags))) trace
    else (none, trace)

/-- The loop of `EC2Image.ShareWithAccount` over the snapshots. -/
def shareSnapshotsEach (sdk : SDK) (svc : Option Session) (awsAccountId : String) :
    List String → List Event → Option String × List Event
  | [], trace => (none, trace)
  | snapshotId :: rest, trace =>
    let err := sdk.ModifySnapshotAttribute trace svc snapshotId awsAccountId
    let trace := trace ++ [Event.ModifySnapshotAttribute svc snapshotId awsAccountId]
    match err with
    | some e => (some e, trace)
    | none => shareSnapshotsEach sdk svc awsAccountId rest trace

/-- `EC2Image.ShareWithAccount`. -/
def EC2Image.ShareWithAccount (sdk : SDK) (e : EC2Image) (accountId : String)
    (shareSnapshots : Bool) (trace : List Event) : Option String × List Event :=
  let err := sdk.ModifyImageAttribute trace e.svc e.id accountId
  let trace := trace ++ [Event.ModifyImageAttribute e.svc e.id accountId]
  match err with
  | some err => (some err, trace)
  | none =>
    if shareSnapshots then shareSnapshotsEach sdk e.svc accountId e.snapshots trace
    else (none, trace)

/-! ## `core/account.go` -/

def AccountSessionKey (account : Account) (region : String) : SessionKey :=
  { AccountID := account.ID, AssumeRole := account.AssumeRole, Region := region }

/-- A call either returns or stops the program with a run-time panic. -/
inductive Outcome (ρ : Type) where
  | returns (r : ρ)
  | panics
deriving DecidableEq, Repr

/-- The zero value of `common.Account`. -/
def Account.zero : Account :=
  { ID := "", Alias := "", AssumeRole := "", PostShareTags := [], Regions := [], AMIs := [] }

/-- `GetAccount`: the pair `(account, err)`, or a panic where the code
dereferences a `nil` pointer or indexes an empty slice. -/
def GetAccount (sdk : SDK) (w : World) (configAccount : Account) :
    Outcome (Account × Option String) × World :=
  let account := Account.zero
  let s := GetSession sdk w (AccountSessionKey configAccount DefaultRegion)
  let w := s.2
  match s.1.2 with
  | some err => (.returns (account, some err), w)
  | none =>
    let identityOutput := sdk.GetCallerIdentity w.trace s.1.1
    let w := { w with trace := w.trace ++ [Event.GetCallerIdentity s.1.1] }
    match identityOutput with
    | .error err => (.returns (account, some err), w)
    | .ok none => (.panics, w)
    | .ok (some id) =>
      let account := { account with ID := id }
      let g := GetSession sdk w (AccountSessionKey configAccount DefaultRegion)
      let w := g.2
      match g.1.2 with
      | some err => (.returns (account, some err), w)
      | none =>
        let aliasesOutput := sdk.ListAccountAliases w.trace g.1.1
        let w := { w with trace := w.trace ++ [Event.ListAccountAliases g.1.1] }
        match aliasesOutput with
        | .error err => (.returns (account, some err), w)
        | .ok [] => (.panics, w)
        | .ok (none :: _) => (.panics, w)
        | .ok (some first :: _) => (.returns ({ account with Alias := first }, none), w)

/-- `ValidateAccount`: the returned error (`none` for `nil`), or a panic. -/
def ValidateAccount (sdk : SDK) (w : World) (account : Account) :
    Outcome (Option String) × World :=
  match GetAccount sdk w account with
  | (.panics, w) => (.panics, w)
  | (.returns (_, some err), w) => (.returns (some err), w)
  | (.returns (expectedAccount, none), w) =>
    if expectedAccount.ID ≠ account.ID then
      (.returns (some ("account number does not match. Expected: " ++ expectedAccount.ID ++
        " got " ++ account.ID)), w)
    else if expectedAccount.Alias ≠ account.Alias then
      (.returns (some ("account alias does not match. Expected: " ++ expectedAccount.Alias ++
        " got " ++ account.Alias)), w)
    else
      (.returns none, w)

/-! ## `core/share.go`: scanning, the plan and its execution -/

/-- The flags of `common.ShareParams`; its `Config` pointer is the
configuration held by the world. -/
structure ShareParams where
  NoDryRun : Bool
  ShareSnapshots : Bool
  PlanFile : String
deriving DecidableEq, Repr

/-- The loop of `ScanForAMIs` over the regions. -/
def scanEach (sdk : SDK) (account : Account) :
    List String → ImagesByRegion EC2Image → World →
    (ImagesByRegion EC2Image × Option String) × World
  | [], regionImages, w => ((regionImages, none), w)
  | region :: rest, regionImages, w =>
    let s := GetSession sdk w (AccountSessionKey account region)
    match s.1.2 with
    | some err => ((regionImages, some err), s.2)
    | none =>
      let l := ListAMIs sdk s.1.1 s.2.trace
      let w := { s.2 with trace := l.2 }
      match l.1.2 with
      | some err => ((regionImages, some err), w)
      | none => scanEach sdk account rest (GoMap.set regionImages region l.1.1) w

/-- `AWSShareAMI.ScanForAMIs`. -/
def ScanForAMIs (sdk : SDK) (w : World) (account : Account) :
    (ImagesByRegion EC2Image × Option String) × World :=
  let s := w.Config.ScanRegions sdk.visit
  scanEach sdk account s.1 [] { w with Config := s.2 }

/-- `AWSShareAMI.WritePlan`: the error of `yaml.Marshal` is returned, the
error of `ioutil.WriteFile` is assigned and not returned. -/
def WritePlan (sdk : SDK) (params : ShareParams) (plan : AMISharePlan) (trace : List Event) :
    Option String × List Event :=
  let m := sdk.Marshal plan
  match m.2 with
  | some err => (some err, trace)
  | none =>
    let _err := sdk.WriteFile trace params.PlanFile m.1
    (none, trace ++ [Event.WriteFile params.PlanFile m.1])

/-- The loop of `Run` that fills `plan.TargetAccounts`. -/
def planTargets (sort : List EC2Image → List EC2Image) (imagesByRegion : ImagesByRegion EC2Image)
    (accounts : List Account) : List AMISharePlanAccount :=
  accounts.foldl
    (fun targets account =>
      targets ++
        [{ ID := account.ID
           Alias := account.Alias
           AssumeRole := account.AssumeRole
           AMIs := FilterAMIs sort imagesByRegion account }])
    []

/-- The innermost loop of `Run`, over the images of one region; a `break`
ends the loop. -/
def shareImages (sdk : SDK) (params : ShareParams) (account : AMISharePlanAccount)
    (region : String) : List EC2Image → World → World
  | [], w => w
  | ami :: rest, w =>
    let s := ami.ShareWithAccount sdk account.ID params.ShareSnapshots w.trace
    let w := { w with trace := s.2 }
    match s.1 with
    | some _ => w
    | none =>
      let shareMetaTags := [(ShareWithPrefix ++ "-" ++ account.Alias, "1")]
      let m := ami.AddTags sdk shareMetaTags params.ShareSnapshots w.trace
      let w := { w with trace := m.2 }
      let w :=
        if 0 < w.Config.SourceAccount.PostShareTags.length then
          { w with trace := (ami.AddTags sdk w.Config.SourceAccount.PostShareTags true w.trace).2 }
        else w
      let g := GetSession sdk w
        { AccountID := account.ID, AssumeRole := account.AssumeRole, Region := region }
      let w := g.2
      match g.1.2 with
      | some _ => w
      | none =>
        let c := ami.CopyTags sdk g.1.1 params.ShareSnapshots w.trace
        let w := { w with trace := c.2 }
        match c.1 with
        | some _ => w
        | none => shareImages sdk params account region rest w

/-- The three outer loops of the live branch of `Run`. -/
def executePlan (sdk : SDK) (params : ShareParams) (plan : AMISharePlan) (w : World) : World :=
  plan.TargetAccounts.foldl
    (fun w account =>
      account.AMIs.foldl
        (fun w group =>
          group.2.foldl (fun w amis => shareImages sdk params account amis.1 amis.2 w) w)
        w)
    w

/-- `AWSShareAMI.Run`: the returned error (`none` for `nil`) and the world
after the call. -/
def Run (sdk : SDK) (sort : List EC2Image → List EC2Image) (params : ShareParams) (w : World) :
    Option String × World :=
  let s := ScanForAMIs sdk w w.Config.SourceAccount
  match s.1.2 with
  | some err => (some err, s.2)
  | none =>
    let imagesByRegion := s.1.1
    let w := s.2
    let config := w.Config
    let plan : AMISharePlan :=
      { SourceAccount :=
          { ID := config.SourceAccount.ID
            Alias := config.SourceAccount.Alias
            AssumeRole := config.SourceAccount.AssumeRole
            AMIs := [(All, imagesByRegion)] }
        TargetAccounts := planTargets sort imagesByRegion config.TargetAccounts }
    let p := WritePlan sdk params plan w.trace
    let w := { w with trace := p.2 }
    match p.1 with
    | some _ => (none, w)
    | none =>
      if params.NoDryRun then (none, executePlan sdk params plan w)
      else (none, w)

/-! ## Traces -/

/-- The calls that only read: creating a session and the describe and
identity calls. -/
def Event.readOnly : Event → Bool
  | .NewSession _ _ => true
  | .GetCallerIdentity _ => true
  | .ListAccountAliases _ => true
  | .DescribeImages _ => true
  | .DescribeTags _ _ => true
  | _ => false

/-- The trace `t'` is the trace `t` followed by calls that all satisfy `P`. -/
def Extends (P : Event → Prop) (t t' : List Event) : Prop :=
  ∃ issued, t' = t ++ issued ∧ ∀ e ∈ issued, P e

/-! ## The resolved properties of an image, stated directly -/

/-- The property a tag contributes: none for a `nil` key or value or a blank
key, otherwise the value under `"tag:"` followed by the trimmed key. -/
def Tag.property (t : Tag) : Option (String × String) :=
  match t.Key, t.Value with
  | some k, some v => if TrimSpace k = "" then none else some ("tag:" ++ TrimSpace k, v)
  | _, _ => none

/-- The resolved property `key` of an image: `AMIName` is the name, `ID` the
id, any other key the value of the last tag that contributes it, and `""`
when no tag does. -/
def resolved (e : EC2Image) (key : String) : String :=
  if key = "AMIName" then e.name
  else if key = "ID" then e.id
  else
    match (e.tags.filterMap Tag.property).reverse.find? (fun kv => decide (kv.1 = key)) with
    | some kv => kv.2
    | none => ""

/-! ## Sample data: scenarios A and B of the specification -/

/-- An image with one tag `Env`. -/
def sampleImage (id : String) (date : Time) (env : String) : EC2Image :=
  { svc := some 1, id := id, date := date, dateStr := "", name := "ami-" ++ id,
    tags := [{ Key := some "Env", Value := some env }], tagsStr := "",
    snapshots := [], snapshotTags := [] }

/-- Three images tagged `Env=prod` with distinct dates and one tagged
`Env=dev`. -/
def sampleImages : List EC2Image :=
  [sampleImage "p1" 10 "prod", sampleImage "p3" 30 "prod", sampleImage "d1" 40 "dev",
   sampleImage "p2" 20 "prod"]

/-- A source account that passes validation. -/
def sampleSource : Account :=
  { ID := "111111111111", Alias := "registry", AssumeRole := "ami-share",
    PostShareTags := [("Shared", "true")], Regions := [], AMIs := [] }

/-- The image group of scenario A. -/
def sampleGroup : AMISelection :=
  { Copy := false, Regions := ["us-east-1"], Filters := [⟨"tag:Env", "prod", false⟩] }

/-- A target account that passes validation. -/
def sampleTarget : Account :=
  { ID := "222222222222", Alias := "prod-target", AssumeRole := "ami-share",
    PostShareTags := [], Regions := ["eu-west-1", "us-east-1"], AMIs := [("linux", sampleGroup)] }

/-- A target account that declares post-share tags. -/
def taggedTarget : Account :=
  { sampleTarget with Alias := "tagged-target", PostShareTags := [("Shared", "true")] }

def sampleConfig : Config :=
  { regions := [], SourceAccount := sampleSource, TargetAccounts := [sampleTarget] }

/-- The error message names the account: the alias occurs in it. -/
def mentions (msg name : String) : Prop := name.toList <:+: msg.toList

instance (msg name : String) : Decidable (mentions msg name) := by
  unfold mentions
  infer_instance

/-- The description of a remote image with one tag `Env`, one marker tag
and one snapshot. -/
def sampleDescription (id date env : String) : ImageDescription :=
  { BlockDeviceMappings := [none, some { Ebs := some { SnapshotId := some ("snap-" ++ id) } }],
    Tags := [{ Key := some "Env", Value := some env },
             { Key := some "ShareWith-prod-target", Value := some "1" }],
    CreationDate := date, ImageId := id, Name := "ami-" ++ id }

/-- An outside world in which every call succeeds; each new session is
numbered by the calls made before it. -/
def sampleSDK : SDK :=
  { NewSession := fun trace _ _ => (some (trace.length + 1), none)
    GetCallerIdentity := fun _ _ => .ok (some "222222222222")
    ListAccountAliases := fun _ _ => .ok [some "prod-target"]
    DescribeImages := fun _ _ =>
      .ok [sampleDescription "p1" "2020-01-01T00:00:00Z" "prod",
           sampleDescription "p2" "2020-01-02T00:00:00Z" "prod",
           sampleDescription "d1" "2020-01-03T00:00:00Z" "dev"]
    DescribeTags := fun _ _ _ => .ok [{ Key := some "ShareWith-other", Value := some "1" }]
    ModifyImageAttribute := fun _ _ _ _ => none
    ModifySnapshotAttribute := fun _ _ _ _ => none
    CreateTags := fun _ _ _ _ => none
    WriteFile := fun _ _ _ => none
    Marshal := fun _ => ("plan", none)
    ParseTime := fun date =>
      if date = "2020-01-01T00:00:00Z" then 1
      else if date = "2020-01-02T00:00:00Z" then 2
      else if date = "2020-01-03T00:00:00Z" then 3
      else 0
    visit := List.reverse }

/-- The world after `NewAWSShareAMI`: an empty cache, and the master session
created by the first remote call. -/
def sampleWorld : World :=
  { Config := sampleConfig
    sessionFactory := { MasterSession := some 1, SessionCache := [] }
    trace := [Event.NewSession DefaultRegion none] }

def sampleKey : SessionKey :=
  { AccountID := "222222222222", AssumeRole := "ami-share", Region := "us-east-1" }

/-- A scanned inventory of two regions. -/
def sampleInventory : ImagesByRegion EC2Image :=
  [("us-east-1", sampleImages), ("eu-west-1", [sampleImage "e1" 5 "prod"])]

/-- A target account with two image groups: one with its own region, one
that falls back on the regions of the account. -/
def twoGroupTarget : Account :=
  { sampleTarget with
    AMIs := [("linux", sampleGroup),
             ("dev", { Copy := false, Regions := [], Filters := [⟨"tag:Env", "prod", true⟩] })] }

/-- The flags of a dry run. -/
def dryParams : ShareParams :=
  { NoDryRun := false, ShareSnapshots := true, PlanFile := "plan.yaml" }

/-! ## The units of work of a plan -/

/-- The calls that `ShareWithAccount` makes: sharing the image and sharing a
snapshot. -/
def Event.shares : Event → Bool
  | .ModifyImageAttribute _ _ _ => true
  | .ModifySnapshotAttribute _ _ _ => true
  | _ => false

/-- The units of work of a plan in the order of the three outer loops of
`Run`: the target account, the group, the region and the images selected
there. -/
def planUnits (plan : AMISharePlan) :
    List (AMISharePlanAccount × String × String × List EC2Image) :=
  plan.TargetAccounts.flatMap
    (fun account =>
      account.AMIs.flatMap
        (fun group => group.2.map (fun amis => (account, group.1, amis.1, amis.2))))

/-- The flags of a live run. -/
def liveParams : ShareParams :=
  { NoDryRun := true, ShareSnapshots := true, PlanFile := "plan.yaml" }

/-- An outside world in which sharing the image `p2` is refused. -/
def shareFailSDK : SDK :=
  { sampleSDK with
    ModifyImageAttribute := fun _ _ imageId _ =>
      if imageId = "p2" then some "AuthFailure" else none }

/-- A world whose one target account has two image groups. -/
def twoGroupWorld : World :=
  { sampleWorld with Config := { sampleConfig with TargetAccounts := [twoGroupTarget] } }

/-- The target account of the plan built for `twoGroupTarget`. -/
def samplePlanAccount : AMISharePlanAccount :=
  { ID := "222222222222", Alias := "prod-target", AssumeRole := "ami-share", AMIs := [] }

/-- An outside world in which the plan file cannot be written. -/
def writeFailSDK : SDK :=
  { sampleSDK with WriteFile := fun _ _ _ => some "open plan.yaml: permission denied" }

/-- An outside world in which `yaml.Marshal` fails. -/
def marshalFailSDK : SDK :=
  { sampleSDK with Marshal := fun _ => ("", some "yaml: cannot marshal") }

/-- An outside world in which the remote account has no alias. -/
def noAliasSDK : SDK :=
  { sampleSDK with ListAccountAliases := fun _ _ => .ok [] }

/-! ## What a listing returns, stated directly -/

/-- What `ListAMIs` makes of one image of the response: the id, the tags
without those whose key starts with `ShareWithPrefix`, and for every snapshot
of the image the answer of a `DescribeTags` call for it, filtered the same
way. -/
def Listed (sdk : SDK) (svc : Option Session) (out : ImageDescription) (image : EC2Image) :
    Prop :=
  image.id = out.ImageId ∧
  image.tags = out.Tags.filter (fun tag => !HasPrefix (StringValue tag.Key) ShareWithPrefix) ∧
  (∀ s, s ∈ GoMap.keys image.snapshotTags ↔ s ∈ image.snapshots) ∧
  ∀ s ∈ image.snapshots, ∃ t resp, sdk.DescribeTags t svc s = .ok resp ∧
    GoMap.get? image.snapshotTags s =
      some ((resp.filter
        (fun tagDesc => !HasPrefix (StringValue tagDesc.Key) ShareWithPrefix)).map
        (fun tagDesc => ({ Key := tagDesc.Key, Value := tagDesc.Value } : Tag)))

/-! ## Stability -/

/-- A sort keeps the input order of images of equal date: it is stable. -/
def KeepsEqualOrder {α : Type} [Image α] (sort : List α → List α) : Prop :=
  ∀ (l : List α) (d : Time),
    (sort l).filter (fun a => decide (Image.Date a = d)) =
      l.filter (fun a => decide (Image.Date a = d))

/-- Seven images; the first two share the latest date. -/
def tieImages : List EC2Image :=
  [sampleImage "a" 9 "prod", sampleImage "b" 9 "prod", sampleImage "c" 1 "prod",
   sampleImage "d" 2 "prod", sampleImage "e" 3 "prod", sampleImage "f" 4 "prod",
   sampleImage "g" 5 "prod"]

/-! ## `sort.Sort` of Go 1.19 and later: pattern-defeating quicksort

`ApplyFilters` sorts with `sort.Sort` of the standard library. From Go 1.19
on it is `pdqsort`, embedded here on the slice as a list with `data.Less(i, j)`
and `data.Swap(i, j)`. Loops carry a bound on their number of rounds. The two
routines `heapSort` and `breakPatterns`, which `pdqsort` calls after badly
balanced partitions only, are taken as given. -/

/-- `data.Less(i, j)` on the slice `data` of images. -/
def lessAt {α : Type} [Image α] (data : List α) (i j : Nat) : Bool :=
  match data[i]?, data[j]? with
  | some x, some y => Less x y
  | _, _ => false

/-- `data.Swap(i, j)`. -/
def swapAt {α : Type} (data : List α) (i j : Nat) : List α :=
  match data[i]?, data[j]? with
  | some x, some y => (data.set i y).set j x
  | _, _ => data

/-- Library `insertionSort(data, a, b)`: the insertion sort of `data[a:b]`. -/
def insertionSortRange {α : Type} [Image α] (data : List α) (a b : Nat) : List α :=
  data.take a ++ insertionSort ((data.drop a).take (b - a)) ++ data.drop b

/-- The routines of the library that `pdqsort` falls back on. -/
structure Fallbacks (α : Type) where
  heapSort : List α → Nat → Nat → List α
  breakPatterns : List α → Nat → Nat → List α

inductive sortedHint where
  | unknownHint
  | increasingHint
  | decreasingHint
deriving DecidableEq, Repr

/-- Library `order2`: the two indices in order, and the swaps counted. -/
def order2 {α : Type} [Image α] (data : List α) (a b swaps : Nat) : Nat × Nat × Nat :=
  if lessAt data b a then (b, a, swaps + 1) else (a, b, swaps)

/-- Library `median`: the index of the median of three, and the swaps
counted. -/
def median {α : Type} [Image α] (data : List α) (a b c swaps : Nat) : Nat × Nat :=
  let r1 := order2 data a b swaps
  let r2 := order2 data r1.2.1 c r1.2.2
  let r3 := order2 data r1.1 r2.1 r2.2.2
  (r3.2.1, r3.2.2)

/-- Library `medianAdjacent`. -/
def medianAdjacent {α : Type} [Image α] (data : List α) (a swaps : Nat) : Nat × Nat :=
  median data (a - 1) a (a + 1) swaps

/-- Library `choosePivot`. -/
def choosePivot {α : Type} [Image α] (data : List α) (a b : Nat) : Nat × sortedHint :=
  let l := b - a
  let i := a + l / 4 * 1
  let j := a + l / 4 * 2
  let k := a + l / 4 * 3
  let r : Nat × Nat :=
    if 8 ≤ l then
      if 50 ≤ l then
        let mi := medianAdjacent data i 0
        let mj := medianAdjacent data j mi.2
        let mk := medianAdjacent data k mj.2
        median data mi.1 mj.1 mk.1 mk.2
      else
        median data i j k 0
    else
      (j, 0)
  if r.2 = 0 then (r.1, .increasingHint)
  else if r.2 = 4 * 3 then (r.1, .decreasingHint)
  else (r.1, .unknownHint)

/-- The loop of library `reverseRange`. -/
def reverseLoop {α : Type} : Nat → List α → Nat → Nat → List α
  | 0, data, _, _ => data
  | rounds + 1, data, i, j =>
    if i < j then reverseLoop rounds (swapAt data i j) (i + 1) (j - 1) else data

/-- Library `reverseRange`. -/
def reverseRange {α : Type} (data : List α) (a b : Nat) : List α :=
  reverseLoop (b - a) data a (b - 1)

/-- The loop `for i < b && !data.Less(i, i-1) { i++ }`. -/
def skipOrdered {α : Type} [Image α] (data : List α) (b : Nat) : Nat → Nat → Nat
  | 0, i => i
  | rounds + 1, i =>
    if i < b ∧ lessAt data i (i - 1) = false then skipOrdered data b rounds (i + 1) else i

/-- The loop of `partialInsertionSort` that shifts the smaller element to
the left. -/
def shiftSmaller {α : Type} [Image α] : Nat → List α → Nat → List α
  | 0, data, _ => data
  | rounds + 1, data, j =>
    if 1 ≤ j then
      if lessAt data j (j - 1) = false then data
      else shiftSmaller rounds (swapAt data j (j - 1)) (j - 1)
    else data

/-- The loop of `partialInsertionSort` that shifts the greater element to
the right. -/
def shiftGreater {α : Type} [Image α] (b : Nat) : Nat → List α → Nat → List α
  | 0, data, _ => data
  | rounds + 1, data, j =>
    if j < b then
      if lessAt data j (j - 1) = false then data
      else shiftGreater b rounds (swapAt data j (j - 1)) (j + 1)
    else data

/-- The outer loop of `partialInsertionSort`, `steps` rounds from index `i`. -/
def partialSteps {α : Type} [Image α] (a b : Nat) : Nat → List α → Nat → List α × Bool
  | 0, data, _ => (data, false)
  | steps + 1, data, i =>
    let i := skipOrdered data b (b - i) i
    if i = b then (data, true)
    else if b - a < 50 then (data, false)
    else
      let data := swapAt data i (i - 1)
      let data := if 2 ≤ i - a then shiftSmaller data.length data (i - 1) else data
      let data := if 2 ≤ b - i then shiftGreater b data.length data (i + 1) else data
      partialSteps a b steps data i

/-- Library `partialInsertionSort`: the slice after the call, and whether it
is sorted. -/
def partialInsertionSort {α : Type} [Image α] (data : List α) (a b : Nat) : List α × Bool :=
  partialSteps a b 5 data (a + 1)

/-- The loop `for i <= j && data.Less(i, a) { i++ }` of `partition`. -/
def scanBelow {α : Type} [Image α] (data : List α) (a j : Nat) : Nat → Nat → Nat
  | 0, i => i
  | rounds + 1, i =>
    if i ≤ j ∧ lessAt data i a = true then scanBelow data a j rounds (i + 1) else i

/-- The loop `for i <= j && !data.Less(j, a) { j-- }` of `partition`. -/
def scanNotBelow {α : Type} [Image α] (data : List α) (a i : Nat) : Nat → Nat → Nat
  | 0, j => j
  | rounds + 1, j =>
    if i ≤ j ∧ lessAt data j a = false then scanNotBelow data a i rounds (j - 1) else j

/-- The main loop of `partition`: the slice and the final `j`. -/
def partitionLoop {α : Type} [Image α] (a : Nat) : Nat → List α → Nat → Nat → List α × Nat
  | 0, data, _, j => (data, j)
  | rounds + 1, data, i, j =>
    let i := scanBelow data a j data.length i
    let j := scanNotBelow data a i data.length j
    if j < i then (data, j)
    else partitionLoop a rounds (swapAt data i j) (i + 1) (j - 1)

/-- Library `partition`: the slice, the new index of the pivot, and whether
the slice was already partitioned. -/
def partition {α : Type} [Image α] (data : List α) (a b pivot : Nat) : List α × Nat × Bool :=
  let data := swapAt data a pivot
  let i := scanBelow data a (b - 1) data.length (a + 1)
  let j := scanNotBelow data a i data.length (b - 1)
  if j < i then
    (swapAt data j a, j, true)
  else
    let r := partitionLoop a data.length (swapAt data i j) (i + 1) (j - 1)
    (swapAt r.1 r.2 a, r.2, false)

/-- The loop `for i <= j && !data.Less(a, i) { i++ }` of `partitionEqual`. -/
def scanNotAbove {α : Type} [Image α] (data : List α) (a j : Nat) : Nat → Nat → Nat
  | 0, i => i
  | rounds + 1, i =>
    if i ≤ j ∧ lessAt data a i = false then scanNotAbove data a j rounds (i + 1) else i

/-- The loop `for i <= j && data.Less(a, j) { j-- }` of `partitionEqual`. -/
def scanAbove {α : Type} [Image α] (data : List α) (a i : Nat) : Nat → Nat → Nat
  | 0, j => j
  | rounds + 1, j =>
    if i ≤ j ∧ lessAt data a j = true then scanAbove data a i rounds (j - 1) else j

/-- The loop of `partitionEqual`: the slice and the final `i`. -/
def partitionEqualLoop {α : Type} [Image α] (a : Nat) :
    Nat → List α → Nat → Nat → List α × Nat
  | 0, data, i, _ => (data, i)
  | rounds + 1, data, i, j =>
    let i := scanNotAbove data a j data.length i
    let j := scanAbove data a i data.length j
    if j < i then (data, i)
    else partitionEqualLoop a rounds (swapAt data i j) (i + 1) (j - 1)

/-- Library `partitionEqual`. -/
def partitionEqual {α : Type} [Image α] (data : List α) (a b pivot : Nat) : List α × Nat :=
  let data := swapAt data a pivot
  partitionEqualLoop a (data.length + 1) data (a + 1) (b - 1)

/-- Library `pdqsort(data, a, b, limit)`; `wasBalanced` and `wasPartitioned`
are its two local variables, `rounds` bounds the rounds of its loop and the
depth of its calls. -/
def pdqsort {α : Type} [Image α] (fb : Fallbacks α) :
    Nat → List α → Nat → Nat → Nat → Bool → Bool → List α
  | 0, data, _, _, _, _, _ => data
  | rounds + 1, data, a, b, limit, wasBalanced, wasPartitioned =>
    let length := b - a
    if length ≤ 12 then insertionSortRange data a b
    else if limit = 0 then fb.heapSort data a b
    else
      let data := if wasBalanced then data else fb.breakPatterns data a b
      let limit := if wasBalanced then limit else limit - 1
      let c := choosePivot data a b
      let data := if c.2 = .decreasingHint then reverseRange data a b else data
      let pivot := if c.2 = .decreasingHint then (b - 1) - (c.1 - a) else c.1
      let hint := if c.2 = .decreasingHint then sortedHint.increasingHint else c.2
      let p :=
        if wasBalanced ∧ wasPartitioned ∧ hint = .increasingHint then
          partialInsertionSort data a b
        else (data, false)
      if p.2 then p.1
      else
        let data := p.1
        if 0 < a ∧ lessAt data (a - 1) pivot = false then
          let e := partitionEqual data a b pivot
          pdqsort fb rounds e.1 e.2 b limit wasBalanced wasPartitioned
        else
          let q := partition data a b pivot
          let mid := q.2.1
          let leftLen := mid - a
          let rightLen := b - mid
          let balanceThreshold := length / 8
          if leftLen < rightLen then
            pdqsort fb rounds (pdqsort fb rounds q.1 a mid limit true true) (mid + 1) b limit
              (decide (balanceThreshold ≤ leftLen)) q.2.2
          else
            pdqsort fb rounds (pdqsort fb rounds q.1 (mid + 1) b limit true true) a mid limit
              (decide (balanceThreshold ≤ rightLen)) q.2.2

/-- Library `bits.Len`: the number of bits of `n`. -/
def bitsLen : Nat → Nat → Nat
  | 0, _ => 0
  | rounds + 1, n => if n = 0 then 0 else 1 + bitsLen rounds (n / 2)

/-- `sort.Sort` of Go 1.19 and later. -/
def goSort {α : Type} [Image α] (fb : Fallbacks α) (data : List α) : List α :=
  let n := data.length
  if n ≤ 1 then data
  else pdqsort fb (n + 1) data 0 n (bitsLen n n) true true

/-- Thirteen images; the second and the sixth share the latest date. -/
def thirteenImages : List EC2Image :=
  [sampleImage "i0" 50 "prod", sampleImage "a" 90 "prod", sampleImage "i2" 10 "prod",
   sampleImage "i3" 70 "prod", sampleImage "i4" 20 "prod", sampleImage "b" 90 "prod",
   sampleImage "i6" 60 "prod", sampleImage "i7" 30 "prod", sampleImage "i8" 40 "prod",
   sampleImage "i9" 80 "prod", sampleImage "i10" 15 "prod", sampleImage "i11" 25 "prod",
   sampleImage "i12" 35 "prod"]

/-- Fallback routines that leave the slice as it is. -/
def idleFallbacks : Fallbacks EC2Image :=
  { heapSort := fun data _ _ => data, breakPatterns := fun data _ _ => data }

/-! ## Lemmas on the selection filter -/

theorem foldl_and_eq {β : Type} (p : β → Bool) (l : List β) (b : Bool) :
    l.foldl (fun matched x => matched && p x) b = (b && l.all p) := by
  induction l generalizing b with
  | nil => simp
  | cons x xs ih => simp [List.foldl_cons, ih, Bool.and_assoc]

theorem matchesAll_iff {α : Type} [Image α] (image : α) (filters : List Filter) :
    matchesAll image filters = true ↔ ∀ f ∈ filters, Image.Match image f = true := by
  unfold matchesAll
  rw [foldl_and_eq (fun f => Image.Match image f)]
  simp

theorem foldl_keep_eq {β : Type} (p : β → Bool) (l acc : List β) :
    l.foldl (fun result x => if p x then result ++ [x] else result) acc = acc ++ l.filter p := by
  induction l generalizing acc with
  | nil => simp
  | cons x xs ih =>
    by_cases hx : p x = true
    · simp [List.foldl_cons, ih, hx]
    · simp [List.foldl_cons, ih, hx]

theorem matching_eq_filter {α : Type} [Image α] (images : List α) (filters : List Filter) :
    matching images filters = images.filter (fun image => matchesAll image filters) := by
  unfold matching
  rw [foldl_keep_eq (fun image => matchesAll image filters)]
  simp

theorem mem_matching {α : Type} [Image α] (images : List α) (filters : List Filter) (x : α) :
    x ∈ matching images filters ↔ x ∈ images ∧ ∀ f ∈ filters, Image.Match x f = true := by
  rw [matching_eq_filter, List.mem_filter, matchesAll_iff]

theorem Less_eq_false_iff {α : Type} [Image α] (a b : α) :
    Less a b = false ↔ Image.Date b ≤ Image.Date a := by
  simp [Less, Before]

/-- The result of `ApplyFilters` is empty or holds the last image of the
sorted matches. -/
theorem ApplyFilters_eq {α : Type} [Image α] (sort : List α → List α) (images : List α)
    (filters : List Filter) :
    ApplyFilters sort images filters = (sort (matching images filters)).getLast?.toList := by
  unfold ApplyFilters
  simp only []
  split
  · rename_i h
    rw [List.getLast?_eq_getElem?]
    rw [List.getElem?_eq_getElem (Nat.sub_lt h Nat.one_pos)]
    simp
  · rename_i h
    have h0 : sort (matching images filters) = [] := by
      cases hs : sort (matching images filters) with
      | nil => rfl
      | cons a l => rw [hs] at h; simp at h
    rw [h0]; rfl

theorem ApplyFilters_length_le {α : Type} [Image α] (sort : List α → List α) (images : List α)
    (filters : List Filter) : (ApplyFilters sort images filters).length ≤ 1 := by
  rw [ApplyFilters_eq]
  cases (sort (matching images filters)).getLast? <;> simp

theorem mem_ApplyFilters {α : Type} [Image α] (sort : List α → List α) (images : List α)
    (filters : List Filter) (x : α) :
    x ∈ ApplyFilters sort images filters ↔ (sort (matching images filters)).getLast? = some x := by
  rw [ApplyFilters_eq]
  cases (sort (matching images filters)).getLast? <;> simp [eq_comm]

/-- In a list ordered by `Less`, the last element is not `Less` than any
element. -/
theorem last_not_Less {α : Type} [Image α] (l : List α) (x : α)
    (hl : l.Pairwise (fun a b => Less b a = false)) (hx : l.getLast? = some x) :
    ∀ y ∈ l, Less x y = false := by
  intro y hy
  obtain ⟨ys, rfl⟩ : ∃ ys, l = ys ++ [x] := by
    rcases List.eq_nil_or_concat l with h | ⟨ys, z, h⟩
    · subst h; simp at hx
    · subst h
      simp at hx
      subst hx
      exact ⟨ys, by simp⟩
  rw [List.pairwise_append] at hl
  rcases List.mem_append.1 hy with h | h
  · exact hl.2.2 y h x (by simp)
  · simp at h
    subst h
    simp [Less, Before]

/-! ## The standard library's insertion sort meets the contract of `sort.Sort` -/

theorem sinkLeft_perm {α : Type} [Image α] (x : α) (l : List α) : (sinkLeft x l).Perm (x :: l) := by
  induction l with
  | nil => simp [sinkLeft]
  | cons y ys ih =>
    unfold sinkLeft
    split
    · exact ((List.Perm.cons y ih).trans (List.Perm.swap x y ys))
    · exact List.Perm.refl _

theorem sinkLeft_ordered {α : Type} [Image α] (x : α) (l : List α)
    (hl : l.Pairwise (fun a b => Less a b = false)) :
    (sinkLeft x l).Pairwise (fun a b => Less a b = false) := by
  induction l with
  | nil => simp [sinkLeft]
  | cons y ys ih =>
    rw [List.pairwise_cons] at hl
    unfold sinkLeft
    split
    · rename_i hxy
      rw [List.pairwise_cons]
      refine ⟨?_, ih hl.2⟩
      intro b hb
      rcases (List.mem_cons.1 ((sinkLeft_perm x ys).mem_iff.1 hb)) with h | h
      · subst h
        rw [Less_eq_false_iff]
        have hlt : Image.Date b < Image.Date y := by simpa [Less, Before] using hxy
        exact le_of_lt hlt
      · exact hl.1 b h
    · rename_i hxy
      rw [List.pairwise_cons]
      refine ⟨?_, List.pairwise_cons.2 hl⟩
      intro b hb
      rcases List.mem_cons.1 hb with h | h
      · subst h; simpa using hxy
      · have h1 := (Less_eq_false_iff y b).1 (hl.1 b h)
        have h2 : Image.Date y ≤ Image.Date x := by
          have : Less x y = false := by simpa using hxy
          exact (Less_eq_false_iff x y).1 this
        exact (Less_eq_false_iff x b).2 (le_trans h1 h2)

theorem foldl_sinkLeft {α : Type} [Image α] (l acc : List α)
    (hacc : acc.Pairwise (fun a b => Less a b = false)) :
    (l.foldl (fun sorted x => sinkLeft x sorted) acc).Perm (l ++ acc) ∧
    (l.foldl (fun sorted x => sinkLeft x sorted) acc).Pairwise (fun a b => Less a b = false) := by
  induction l generalizing acc with
  | nil => exact ⟨List.Perm.refl _, hacc⟩
  | cons x xs ih =>
    have h := ih (sinkLeft x acc) (sinkLeft_ordered x acc hacc)
    refine ⟨?_, h.2⟩
    rw [List.foldl_cons]
    refine h.1.trans ?_
    refine ((List.Perm.append_left xs (sinkLeft_perm x acc)).trans ?_)
    simp

theorem insertionSort_sorts {α : Type} [Image α] :
    SortsByLess (insertionSort : List α → List α) := by
  constructor
  · intro l
    unfold insertionSort
    have h := (foldl_sinkLeft l [] List.Pairwise.nil).1
    simpa using (List.reverse_perm _).trans h
  · intro l
    unfold insertionSort
    rw [List.pairwise_reverse]
    exact (foldl_sinkLeft l [] List.Pairwise.nil).2

/-! ## The selection filter: latest match, and match exactly when one exists -/

/-- C1: for every list of images `S` and every filter chain `F`,
`ApplyFilters` returns a list of length 0 or 1, and the image it returns has a
`Date` that is not before the `Date` of any image of `S` that matches every
filter of `F`; `sort.Sort` is any function that meets its contract. -/
theorem ApplyFilters_latest {α : Type} [Image α] (sort : List α → List α)
    (hsort : SortsByLess sort) (S : List α) (F : List Filter) :
    ((ApplyFilters sort S F).length = 0 ∨ (ApplyFilters sort S F).length = 1) ∧
    ∀ x ∈ ApplyFilters sort S F, ∀ y ∈ S, (∀ f ∈ F, Image.Match y f = true) →
      Before (Image.Date x) (Image.Date y) = false := by
  constructor
  · have h := ApplyFilters_length_le sort S F
    omega
  · intro x hx y hy hmatch
    rw [mem_ApplyFilters] at hx
    have hmem : y ∈ sort (matching S F) :=
      (hsort.perm (matching S F)).mem_iff.2 ((mem_matching S F y).2 ⟨hy, hmatch⟩)
    exact last_not_Less _ x (hsort.ordered _) hx y hmem

theorem ApplyFilters_latest_witness :
    SortsByLess (insertionSort : List EC2Image → List EC2Image) ∧
    ApplyFilters insertionSort sampleImages [⟨"tag:Env", "prod", false⟩] =
      [sampleImage "p3" 30 "prod"] ∧
    (((ApplyFilters insertionSort sampleImages [⟨"tag:Env", "prod", false⟩]).length = 0 ∨
      (ApplyFilters insertionSort sampleImages [⟨"tag:Env", "prod", false⟩]).length = 1) ∧
    ∀ x ∈ ApplyFilters insertionSort sampleImages [⟨"tag:Env", "prod", false⟩],
      ∀ y ∈ sampleImages, (∀ f ∈ [(⟨"tag:Env", "prod", false⟩ : Filter)], Image.Match y f = true) →
        Before (Image.Date x) (Image.Date y) = false) :=
  ⟨insertionSort_sorts, by decide,
    ApplyFilters_latest insertionSort insertionSort_sorts sampleImages [⟨"tag:Env", "prod", false⟩]⟩

/-- C2: for every list of images `S` and every filter chain `F`,
`ApplyFilters` is non-empty exactly when some image of `S` matches every
filter of `F` (for the empty chain: exactly when `S` is non-empty), and the
image it returns is an element of `S` that matches every filter of `F`. -/
theorem ApplyFilters_nonempty_iff {α : Type} [Image α] (sort : List α → List α)
    (hsort : SortsByLess sort) (S : List α) (F : List Filter) :
    (ApplyFilters sort S F ≠ [] ↔ ∃ y ∈ S, ∀ f ∈ F, Image.Match y f = true) ∧
    (ApplyFilters sort S [] ≠ [] ↔ S ≠ []) ∧
    ∀ x ∈ ApplyFilters sort S F, x ∈ S ∧ ∀ f ∈ F, Image.Match x f = true := by
  have key : ∀ F' : List Filter,
      (ApplyFilters sort S F' ≠ [] ↔ ∃ y ∈ S, ∀ f ∈ F', Image.Match y f = true) := by
    intro F'
    rw [ApplyFilters_eq]
    constructor
    · intro h
      cases hl : (sort (matching S F')).getLast? with
      | none => rw [hl] at h; simp at h
      | some x =>
        have hx : x ∈ matching S F' :=
          (hsort.perm _).mem_iff.1 (List.mem_of_getLast?_eq_some hl)
        exact ⟨x, (mem_matching S F' x).1 hx⟩
    · rintro ⟨y, hy, hm⟩
      have hmem : y ∈ sort (matching S F') :=
        (hsort.perm _).mem_iff.2 ((mem_matching S F' y).2 ⟨hy, hm⟩)
      cases hl : (sort (matching S F')).getLast? with
      | none =>
        rw [List.getLast?_eq_none_iff] at hl
        rw [hl] at hmem
        simp at hmem
      | some x => simp
  refine ⟨key F, ?_, ?_⟩
  · rw [key []]
    constructor
    · rintro ⟨y, hy, _⟩ h
      rw [h] at hy
      simp at hy
    · intro h
      cases S with
      | nil => exact absurd rfl h
      | cons a l => exact ⟨a, by simp, by simp⟩
  · intro x hx
    rw [mem_ApplyFilters] at hx
    exact (mem_matching S F x).1 ((hsort.perm _).mem_iff.1 (List.mem_of_getLast?_eq_some hx))

theorem ApplyFilters_nonempty_iff_witness :
    SortsByLess (insertionSort : List EC2Image → List EC2Image) ∧
    ApplyFilters insertionSort sampleImages [⟨"tag:Env", "dev", false⟩] =
      [sampleImage "d1" 40 "dev"] ∧
    ApplyFilters insertionSort sampleImages [⟨"tag:Env", "test", false⟩] = [] ∧
    ((ApplyFilters insertionSort sampleImages [⟨"tag:Env", "dev", false⟩] ≠ [] ↔
        ∃ y ∈ sampleImages, ∀ f ∈ [(⟨"tag:Env", "dev", false⟩ : Filter)], Image.Match y f = true) ∧
      (ApplyFilters insertionSort sampleImages [] ≠ [] ↔ sampleImages ≠ []) ∧
      ∀ x ∈ ApplyFilters insertionSort sampleImages [⟨"tag:Env", "dev", false⟩],
        x ∈ sampleImages ∧ ∀ f ∈ [(⟨"tag:Env", "dev", false⟩ : Filter)], Image.Match x f = true) :=
  ⟨insertionSort_sorts, by decide, by decide,
    ApplyFilters_nonempty_iff insertionSort insertionSort_sorts sampleImages
      [⟨"tag:Env", "dev", false⟩]⟩

/-! ## Go maps: lookup after assignment -/

theorem GoMap.get?_append_single {κ ν : Type} [DecidableEq κ] (m : List (κ × ν)) (k q : κ) (v : ν) :
    GoMap.get? (m ++ [(k, v)]) q =
      match GoMap.get? m q with
      | some x => some x
      | none => if k = q then some v else none := by
  induction m with
  | nil =>
    by_cases h : k = q
    · simp [GoMap.get?, h]
    · simp [GoMap.get?, h]
  | cons e es ih =>
    by_cases h : e.1 = q
    · simp [GoMap.get?, List.find?_cons, h]
    · simpa [GoMap.get?, List.find?_cons, h] using ih

theorem GoMap.get?_filter_ne {κ ν : Type} [DecidableEq κ] (m : List (κ × ν)) (k q : κ) :
    GoMap.get? (m.filter (fun e => !decide (e.1 = k))) q =
      if q = k then none else GoMap.get? m q := by
  induction m with
  | nil => simp [GoMap.get?]
  | cons e es ih =>
    by_cases hk : e.1 = k
    · by_cases hq : q = k
      · simpa [List.filter_cons, hk, hq] using ih
      · have hne : ¬ e.1 = q := fun h => hq (h.symm.trans hk)
        rw [List.filter_cons]
        simp only [hk, decide_True, Bool.not_true, Bool.false_eq_true, if_false]
        rw [ih]
        simp [GoMap.get?, List.find?_cons, hq, hne]
    · rw [List.filter_cons]
      simp only [hk, decide_False, Bool.not_false, if_true]
      by_cases hq : q = k
      · have hne : ¬ e.1 = q := fun h => hk (h.trans hq)
        have ih2 := ih
        simp only [hq, if_true] at ih2 ⊢
        simp [GoMap.get?, List.find?_cons, hk]
      · simp only [hq, if_false] at ih ⊢
        by_cases he : e.1 = q
        · simp [GoMap.get?, List.find?_cons, he]
        · simpa [GoMap.get?, List.find?_cons, he] using ih

/-- Looking up `q` after `m[k] = v`. -/
theorem GoMap.get?_set {κ ν : Type} [DecidableEq κ] (m : List (κ × ν)) (k q : κ) (v : ν) :
    GoMap.get? (GoMap.set m k v) q = if q = k then some v else GoMap.get? m q := by
  unfold GoMap.set
  rw [GoMap.get?_append_single, GoMap.get?_filter_ne]
  by_cases h : q = k
  · simp [h]
  · have h2 : ¬ k = q := fun e => h e.symm
    simp only [h, h2, if_false]
    cases GoMap.get? m q <;> rfl

/-! ## The resolved properties of an image -/

theorem Properties.Get_Set (p : Properties) (key q v : String) :
    (p.Set key (some v)).Get q = if q = key then v else p.Get q := by
  unfold Properties.Get Properties.Set
  simp only []
  rw [GoMap.get?_set]
  by_cases h : q = key
  · simp [h]
  · simp [h]

theorem Properties.Get_SetTag (p : Properties) (t : Tag) (q : String) :
    (p.SetTag t.Key t.Value).Get q =
      match t.property with
      | some kv => if q = kv.1 then kv.2 else p.Get q
      | none => p.Get q := by
  cases t with
  | mk key value =>
    cases key with
    | none => simp [Properties.SetTag, Tag.property]
    | some k =>
      cases value with
      | none =>
        by_cases hk : TrimSpace k = ""
        · simp [Properties.SetTag, Tag.property, hk]
        · simp [Properties.SetTag, Tag.property, hk, Properties.Set]
      | some v =>
        by_cases hk : TrimSpace k = ""
        · simp [Properties.SetTag, Tag.property, hk]
        · simp only [Properties.SetTag, Tag.property, hk, if_false]
          exact Properties.Get_Set p _ q v

theorem Properties.Get_foldl_SetTag (tags : List Tag) (p : Properties) (q : String) :
    (tags.foldl (fun (p : Properties) tagValue => p.SetTag tagValue.Key tagValue.Value) p).Get q =
      match (tags.filterMap Tag.property).reverse.find? (fun kv => decide (kv.1 = q)) with
      | some kv => kv.2
      | none => p.Get q := by
  induction tags generalizing p with
  | nil => simp
  | cons t ts ih =>
    rw [List.foldl_cons, ih, Properties.Get_SetTag]
    cases ht : t.property with
    | none => simp [List.filterMap_cons, ht]
    | some kv =>
      simp only [List.filterMap_cons, ht, List.reverse_cons, List.find?_append]
      cases hf : List.find? (fun kv => decide (kv.1 = q)) (List.filterMap Tag.property ts).reverse with
      | some r => simp
      | none =>
        by_cases hq : q = kv.1
        · simp [hq]
        · have hq2 : ¬ kv.1 = q := fun e => hq e.symm
          simp [hq, hq2]

/-- The property map built by `EC2Image.Properties` resolves every key as
`resolved` states. -/
theorem Properties_Get_eq_resolved (e : EC2Image) (q : String) :
    e.Properties.Get q = resolved e q := by
  unfold EC2Image.Properties resolved
  simp only []
  rw [Properties.Get_Set, Properties.Get_Set, Properties.Get_foldl_SetTag]
  by_cases h1 : q = "AMIName"
  · simp [h1]
  · by_cases h2 : q = "ID"
    · simp [h2]
    · simp only [h1, h2, if_false]
      cases List.find? (fun kv => decide (kv.1 = q)) (List.filterMap Tag.property e.tags).reverse with
      | some r => rfl
      | none => rfl

/-- C3, as the claim states it, fails: an image tagged `Env=prod` does not
match the filter on property `Env` with value `prod`, and matches the
inverted filter. -/
theorem Match_untagged_key_counterexample :
    (sampleImage "p1" 10 "prod").tags = [{ Key := some "Env", Value := some "prod" }] ∧
    (sampleImage "p1" 10 "prod").Match ⟨"Env", "prod", false⟩ = false ∧
    (sampleImage "p1" 10 "prod").Match ⟨"Env", "prod", true⟩ = true := by
  decide

/-- C3, amended: for every image and every filter, `Match` returns true
exactly when the resolved property named by the filter equals the value
(invert unset) or differs from it (invert set); the resolved properties are
`AMIName`, the name, `ID`, the id, and every tag under `"tag:"` followed by
its trimmed key, an absent property resolving to `""`. An image tagged
`Env=prod` matches the filter on `tag:Env` with value `prod` and does not
match the inverted filter. -/
theorem Match_iff_resolved :
    (∀ (e : EC2Image) (filter : Filter),
      e.Match filter = true ↔
        if filter.Invert = true then resolved e filter.Property ≠ filter.Value
        else resolved e filter.Property = filter.Value) ∧
    (∀ e : EC2Image, resolved e "ID" = e.id ∧ resolved e "AMIName" = e.name) ∧
    (∀ (e : EC2Image) (k v : String), TrimSpace k ≠ "" →
      { Key := some k, Value := some v } ∈ e.tags →
      (∀ t ∈ e.tags, ∀ kv, t.property = some kv → kv.1 = "tag:" ++ TrimSpace k → kv.2 = v) →
      resolved e ("tag:" ++ TrimSpace k) = v) ∧
    (sampleImage "p1" 10 "prod").Match ⟨"tag:Env", "prod", false⟩ = true ∧
    (sampleImage "p1" 10 "prod").Match ⟨"tag:Env", "prod", true⟩ = false := by
  refine ⟨?_, ?_, ?_, by decide, by decide⟩
  · intro e filter
    unfold EC2Image.Match
    simp only []
    rw [Properties_Get_eq_resolved]
    cases filter.Invert <;> simp
  · intro e
    constructor
    · have h : ¬ ("ID" = "AMIName") := by decide
      simp [resolved, h]
    · simp [resolved]
  · intro e k v hk hmem hagree
    have hne1 : ¬ ("tag:" ++ TrimSpace k = "AMIName") := by
      intro h
      have hd := congrArg String.data h
      simp at hd
    have hne2 : ¬ ("tag:" ++ TrimSpace k = "ID") := by
      intro h
      have hd := congrArg String.data h
      simp at hd
    have hprop : Tag.property { Key := some k, Value := some v } =
        some ("tag:" ++ TrimSpace k, v) := by
      simp [Tag.property, hk]
    unfold resolved
    simp only [hne1, hne2, if_false]
    cases hf : List.find? (fun kv => decide (kv.1 = "tag:" ++ TrimSpace k))
        (List.filterMap Tag.property e.tags).reverse with
    | none =>
      rw [List.find?_eq_none] at hf
      have hin : ("tag:" ++ TrimSpace k, v) ∈ (List.filterMap Tag.property e.tags).reverse := by
        rw [List.mem_reverse, List.mem_filterMap]
        exact ⟨_, hmem, hprop⟩
      have := hf _ hin
      simp at this
    | some kv =>
      have hin := List.mem_of_find?_eq_some hf
      have hp := List.find?_some hf
      rw [List.mem_reverse, List.mem_filterMap] at hin
      obtain ⟨t, ht, htp⟩ := hin
      exact hagree t ht kv htp (by simpa using hp)

theorem Match_iff_resolved_witness :
    TrimSpace "Env" ≠ "" ∧
    resolved (sampleImage "p1" 10 "prod") ("tag:" ++ TrimSpace "Env") = "prod" :=
  ⟨by decide,
    Match_iff_resolved.2.2.1 (sampleImage "p1" 10 "prod") "Env" "prod" (by decide) (by decide)
      (by
        intro t ht kv hp _
        have ht2 : t = { Key := some "Env", Value := some "prod" } := by
          simpa [sampleImage] using ht
        subst ht2
        have hd : Tag.property { Key := some "Env", Value := some "prod" } =
            some ("tag:Env", "prod") := by decide
        rw [hd] at hp
        cases hp
        rfl)⟩

/-! ## Validation of the configuration -/

theorem validateTargets_rejects (accounts : List Account)
    (h : ∃ a ∈ accounts, a.AMIs = [] ∨ a.PostShareTags ≠ [] ∨ a.AssumeRole = "") :
    ∃ err, validateTargets accounts = some err := by
  induction accounts with
  | nil =>
    obtain ⟨a, ha, _⟩ := h
    simp at ha
  | cons b rest ih =>
    unfold validateTargets
    split
    · exact ⟨_, rfl⟩
    · split
      · exact ⟨_, rfl⟩
      · split
        · exact ⟨_, rfl⟩
        · rename_i h1 h2 h3
          apply ih
          obtain ⟨a, ha, hbad⟩ := h
          rcases List.mem_cons.1 ha with hab | hin
          · subst hab
            exfalso
            rcases hbad with hb | hb | hb
            · apply h1; simp [hb]
            · apply h2
              exact List.length_pos.2 hb
            · exact h3 hb
          · exact ⟨a, hin, hbad⟩

theorem Validate_error_of_targets (config : Config)
    (h : ∃ a ∈ config.TargetAccounts, a.AMIs = [] ∨ a.PostShareTags ≠ [] ∨ a.AssumeRole = "") :
    ∃ err, config.Validate = .error err := by
  unfold Config.Validate
  split
  · exact ⟨_, rfl⟩
  · split
    · exact ⟨_, rfl⟩
    · obtain ⟨err, herr⟩ := validateTargets_rejects config.TargetAccounts h
      rw [herr]
      exact ⟨_, rfl⟩

/-- C4: `Validate` returns an error if the source account has a non-empty
regions list or a non-empty amis mapping, if any target account has an empty
amis mapping, or if the source account or any target account has an empty
assume-role. -/
theorem Validate_rejects (config : Config)
    (h : config.SourceAccount.Regions ≠ [] ∨ config.SourceAccount.AMIs ≠ [] ∨
      (∃ a ∈ config.TargetAccounts, a.AMIs = []) ∨
      config.SourceAccount.AssumeRole = "" ∨
      (∃ a ∈ config.TargetAccounts, a.AssumeRole = "")) :
    ∃ err, config.Validate = .error err := by
  rcases h with h | h | h | h | h
  · unfold Config.Validate
    rw [if_pos (Or.inl (List.length_pos.2 h))]
    exact ⟨_, rfl⟩
  · unfold Config.Validate
    rw [if_pos (Or.inr (List.length_pos.2 h))]
    exact ⟨_, rfl⟩
  · obtain ⟨a, ha, hbad⟩ := h
    exact Validate_error_of_targets config ⟨a, ha, Or.inl hbad⟩
  · unfold Config.Validate
    split
    · exact ⟨_, rfl⟩
    · exact ⟨_, rfl⟩
  · obtain ⟨a, ha, hbad⟩ := h
    exact Validate_error_of_targets config ⟨a, ha, Or.inr (Or.inr hbad)⟩

theorem Validate_rejects_witness :
    ({ sampleConfig with
        TargetAccounts := [sampleTarget, { sampleTarget with Alias := "bare", AMIs := [] }] } :
      Config).Validate =
      .error "account [bare] does not have any AMIs: required at least one" ∧
    ∃ err,
      ({ sampleConfig with
          TargetAccounts := [sampleTarget, { sampleTarget with Alias := "bare", AMIs := [] }] } :
        Config).Validate = .error err :=
  ⟨by rfl,
    Validate_rejects _
      (Or.inr (Or.inr (Or.inl ⟨{ sampleTarget with Alias := "bare", AMIs := [] }, by decide, rfl⟩)))⟩

theorem validateTargets_first_tagged (pre post : List Account) (a : Account)
    (hpre : ∀ b ∈ pre, b.AMIs ≠ [] ∧ b.PostShareTags = [] ∧ b.AssumeRole ≠ "")
    (htags : a.PostShareTags ≠ []) :
    validateTargets (pre ++ a :: post) =
      some (if a.AMIs = [] then
          "account [" ++ a.Alias ++ "] does not have any AMIs: required at least one"
        else "post-share-tags not allowed here: account [" ++ a.Alias ++ "]") := by
  induction pre with
  | nil =>
    by_cases hamis : a.AMIs = []
    · have h1 : a.AMIs.length < 1 := by simp [hamis]
      simp only [List.nil_append, validateTargets, if_pos h1, if_pos hamis]
    · have h1 : ¬ a.AMIs.length < 1 := by
        have := List.length_pos.2 hamis
        omega
      have h2 : 0 < a.PostShareTags.length := List.length_pos.2 htags
      simp only [List.nil_append, validateTargets, h1, h2, hamis, if_false, if_true]
  | cons b rest ih =>
    have hb := hpre b (by simp)
    have h1 : ¬ b.AMIs.length < 1 := by
      have := List.length_pos.2 hb.1
      omega
    have h2 : ¬ 0 < b.PostShareTags.length := by simp [hb.2.1]
    simp only [List.cons_append, validateTargets, h1, h2, hb.2.2, if_false]
    exact ih (fun c hc => hpre c (by simp [hc]))

theorem mentions_bracketed (before after name : String) :
    mentions (before ++ name ++ after) name := by
  unfold mentions
  exact ⟨before.toList, after.toList, by simp [String.toList]⟩

/-- C5, as the claim states it, fails: a target account with post-share tags
is rejected by an error that does not name it when the source account has no
assume-role, and when a target account listed before it has none. -/
theorem Validate_postShareTags_counterexample :
    taggedTarget.PostShareTags ≠ [] ∧
    (taggedTarget ∈ [taggedTarget] ∧
      ({ regions := [], SourceAccount := { sampleSource with AssumeRole := "" },
         TargetAccounts := [taggedTarget] } : Config).Validate =
        .error "assume-role must be specified on source account" ∧
      ¬ mentions "assume-role must be specified on source account" taggedTarget.Alias) ∧
    (taggedTarget ∈ [{ sampleTarget with Alias := "first", AssumeRole := "" }, taggedTarget] ∧
      ({ regions := [], SourceAccount := sampleSource,
         TargetAccounts := [{ sampleTarget with Alias := "first", AssumeRole := "" },
           taggedTarget] } : Config).Validate =
        .error "assume-role must be specified on [first]" ∧
      ¬ mentions "assume-role must be specified on [first]" taggedTarget.Alias) :=
  ⟨by decide, ⟨by decide, by rfl, by decide⟩, ⟨by decide, by rfl, by decide⟩⟩

/-- C5, amended: for every configuration in which a target account declares
a non-empty post-share-tags mapping, `Validate` returns an error; when the
source account passes its own checks and every target account listed before
that account passes, the error names the alias of that account: it is
`post-share-tags not allowed here: account [<alias>]` when the account has an
image group and `account [<alias>] does not have any AMIs: required at least
one` when it has none. -/
theorem Validate_postShareTags (config : Config) (pre post : List Account) (a : Account)
    (hlist : config.TargetAccounts = pre ++ a :: post) (htags : a.PostShareTags ≠ []) :
    (∃ err, config.Validate = .error err) ∧
    (config.SourceAccount.Regions = [] → config.SourceAccount.AMIs = [] →
      config.SourceAccount.AssumeRole ≠ "" →
      (∀ b ∈ pre, b.AMIs ≠ [] ∧ b.PostShareTags = [] ∧ b.AssumeRole ≠ "") →
      (∃ msg, config.Validate = .error msg ∧ mentions msg a.Alias) ∧
      (a.AMIs ≠ [] →
        config.Validate =
          .error ("post-share-tags not allowed here: account [" ++ a.Alias ++ "]")) ∧
      (a.AMIs = [] →
        config.Validate =
          .error ("account [" ++ a.Alias ++
            "] does not have any AMIs: required at least one"))) := by
  constructor
  · apply Validate_error_of_targets
    exact ⟨a, by simp [hlist], Or.inr (Or.inl htags)⟩
  · intro hr ha hrole hpre
    have hval : config.Validate =
        .error (if a.AMIs = [] then
            "account [" ++ a.Alias ++ "] does not have any AMIs: required at least one"
          else "post-share-tags not allowed here: account [" ++ a.Alias ++ "]") := by
      unfold Config.Validate
      have h0 : ¬ (0 < config.SourceAccount.Regions.length ∨
          0 < config.SourceAccount.AMIs.length) := by
        simp [hr, ha]
      rw [if_neg h0, if_neg hrole, hlist, validateTargets_first_tagged pre post a hpre htags]
    refine ⟨?_, ?_, ?_⟩
    · by_cases hamis : a.AMIs = []
      · rw [if_pos hamis] at hval
        exact ⟨_, hval, mentions_bracketed _ _ _⟩
      · rw [if_neg hamis] at hval
        exact ⟨_, hval, mentions_bracketed _ _ _⟩
    · intro hamis
      rw [if_neg hamis] at hval
      exact hval
    · intro hamis
      rw [if_pos hamis] at hval
      exact hval

theorem Validate_postShareTags_witness :
    ((∃ msg,
        ({ sampleConfig with TargetAccounts := [sampleTarget, taggedTarget] } : Config).Validate =
          .error msg ∧ mentions msg taggedTarget.Alias) ∧
      (taggedTarget.AMIs ≠ [] →
        ({ sampleConfig with TargetAccounts := [sampleTarget, taggedTarget] } : Config).Validate =
          .error ("post-share-tags not allowed here: account [" ++ taggedTarget.Alias ++ "]")) ∧
      (taggedTarget.AMIs = [] →
        ({ sampleConfig with TargetAccounts := [sampleTarget, taggedTarget] } : Config).Validate =
          .error ("account [" ++ taggedTarget.Alias ++
            "] does not have any AMIs: required at least one"))) ∧
    (({ sampleConfig with
        TargetAccounts := [sampleTarget, { taggedTarget with AMIs := [] }] } : Config).Validate =
      .error "account [tagged-target] does not have any AMIs: required at least one" ∧
      mentions "account [tagged-target] does not have any AMIs: required at least one"
        "tagged-target") :=
  ⟨(Validate_postShareTags { sampleConfig with TargetAccounts := [sampleTarget, taggedTarget] }
      [sampleTarget] [] taggedTarget rfl (by decide)).2 (by decide) (by decide) (by decide)
      (by decide),
    by rfl, by decide⟩

/-! ## Role ARNs -/

theorem HasPrefix_append (p s : String) : HasPrefix (p ++ s) p = true := by
  unfold HasPrefix
  simp only [String.toList, String.data_append]
  exact List.isPrefixOf_iff_prefix.2 (List.prefix_append _ _)

/-- C6: for every account, applying `GenerateRoleARN` twice leaves the same
`AssumeRole` (and so the same account) as applying it once; the role it
leaves starts with `arn:aws:iam::`, and no field other than `AssumeRole` is
changed. -/
theorem GenerateRoleARN_idempotent (account : Account) :
    account.GenerateRoleARN.GenerateRoleARN.AssumeRole = account.GenerateRoleARN.AssumeRole ∧
    account.GenerateRoleARN.GenerateRoleARN = account.GenerateRoleARN ∧
    HasPrefix account.GenerateRoleARN.AssumeRole "arn:aws:iam::" = true ∧
    { account.GenerateRoleARN with AssumeRole := account.AssumeRole } = account := by
  have hpre : HasPrefix account.GenerateRoleARN.AssumeRole "arn:aws:iam::" = true := by
    unfold Account.GenerateRoleARN
    by_cases h : HasPrefix account.AssumeRole "arn:aws:iam::" = true
    · simp [h]
    · simp only [h, Bool.not_eq_true, Bool.not_false, if_true]
      rw [String.append_assoc, String.append_assoc]
      exact HasPrefix_append _ _
  have hidem : account.GenerateRoleARN.GenerateRoleARN = account.GenerateRoleARN := by
    generalize account.GenerateRoleARN = b at hpre
    unfold Account.GenerateRoleARN
    simp [hpre]
  refine ⟨by rw [hidem], hidem, hpre, ?_⟩
  unfold Account.GenerateRoleARN
  split <;> rfl

/-! ## The session cache -/

theorem GoMap.keys_set {κ ν : Type} [DecidableEq κ] (m : List (κ × ν)) (k : κ) (v : ν) :
    GoMap.keys (GoMap.set m k v) = (GoMap.keys m).filter (fun x => !decide (x = k)) ++ [k] := by
  unfold GoMap.keys GoMap.set
  rw [List.map_append, List.filter_map]
  rfl

theorem GoMap.nodup_keys_set {κ ν : Type} [DecidableEq κ] (m : List (κ × ν)) (k : κ) (v : ν)
    (h : (GoMap.keys m).Nodup) : (GoMap.keys (GoMap.set m k v)).Nodup := by
  rw [GoMap.keys_set]
  rw [List.nodup_append]
  refine ⟨h.filter _, List.nodup_singleton k, ?_⟩
  intro x hx hk
  rw [List.mem_singleton] at hk
  subst hk
  simp at hx

theorem GoMap.mem_keys_set {κ ν : Type} [DecidableEq κ] (m : List (κ × ν)) (k x : κ) (v : ν) :
    x ∈ GoMap.keys (GoMap.set m k v) ↔ x = k ∨ x ∈ GoMap.keys m := by
  rw [GoMap.keys_set]
  by_cases h : x = k
  · simp [h]
  · simp [h]

/-- On a cached key `GetSession` returns the cached session and touches
nothing. -/
theorem GetSession_hit (sdk : SDK) (w : World) (k : SessionKey) (v : Option Session)
    (h : GoMap.get? w.sessionFactory.SessionCache k = some v) :
    GetSession sdk w k = ((v, none), w) := by
  unfold GetSession
  rw [h]

/-- The cache after `GetSession`: as before, or with the one key that was
absent added. -/
theorem GetSession_cache (sdk : SDK) (w : World) (k : SessionKey) :
    (GetSession sdk w k).2.sessionFactory.SessionCache = w.sessionFactory.SessionCache ∨
    (GoMap.get? w.sessionFactory.SessionCache k = none ∧
      ∃ v, (GetSession sdk w k).2.sessionFactory.SessionCache =
        GoMap.set w.sessionFactory.SessionCache k v) := by
  unfold GetSession
  cases hc : GoMap.get? w.sessionFactory.SessionCache k with
  | some sess => exact Or.inl rfl
  | none =>
    cases hm : w.sessionFactory.MasterSession with
    | none => exact Or.inl rfl
    | some master =>
      simp only []
      cases he : (sdk.NewSession w.trace k.Region (some (master, k.AssumeRole))).2 with
      | some err => exact Or.inl rfl
      | none => exact Or.inr ⟨trivial, _, rfl⟩

/-- A session returned without error is in the cache afterwards. -/
theorem GetSession_stores (sdk : SDK) (w w1 : World) (k : SessionKey) (s : Session)
    (h : GetSession sdk w k = ((some s, none), w1)) :
    GoMap.get? w1.sessionFactory.SessionCache k = some (some s) := by
  unfold GetSession at h
  cases hc : GoMap.get? w.sessionFactory.SessionCache k with
  | some sess =>
    rw [hc] at h
    simp only [Prod.mk.injEq] at h
    obtain ⟨⟨h1, _⟩, h2⟩ := h
    rw [← h2, hc, h1]
  | none =>
    rw [hc] at h
    cases hm : w.sessionFactory.MasterSession with
    | none =>
      rw [hm] at h
      simp at h
    | some master =>
      rw [hm] at h
      simp only [] at h
      cases he : (sdk.NewSession w.trace k.Region (some (master, k.AssumeRole))).2 with
      | some err =>
        rw [he] at h
        simp at h
      | none =>
        rw [he] at h
        simp only [Prod.mk.injEq] at h
        obtain ⟨⟨h1, _⟩, h2⟩ := h
        rw [← h2]
        simp only []
        rw [GoMap.get?_set, if_pos rfl, h1]

/-- One step keeps the keys of the cache distinct and keeps every cached
session. -/
theorem FactoryOp.run_keeps (sdk : SDK) (w : World) (op : FactoryOp) (k : SessionKey)
    (v : Option Session) (hkeys : (GoMap.keys w.sessionFactory.SessionCache).Nodup)
    (hk : GoMap.get? w.sessionFactory.SessionCache k = some v) :
    (GoMap.keys (op.run sdk w).sessionFactory.SessionCache).Nodup ∧
    GoMap.get? (op.run sdk w).sessionFactory.SessionCache k = some v := by
  cases op with
  | generateMaster key => exact ⟨hkeys, hk⟩
  | remote call => exact ⟨hkeys, hk⟩
  | getSession key =>
    unfold FactoryOp.run
    rcases GetSession_cache sdk w key with h | ⟨hnone, v2, h⟩
    · rw [h]; exact ⟨hkeys, hk⟩
    · rw [h]
      refine ⟨GoMap.nodup_keys_set _ _ _ hkeys, ?_⟩
      rw [GoMap.get?_set]
      have hne : ¬ k = key := by
        intro e
        rw [e, hnone] at hk
        cases hk
      rw [if_neg hne, hk]

theorem runOps_keeps (sdk : SDK) (ops : List FactoryOp) (w : World) (k : SessionKey)
    (v : Option Session) (hkeys : (GoMap.keys w.sessionFactory.SessionCache).Nodup)
    (hk : GoMap.get? w.sessionFactory.SessionCache k = some v) :
    (GoMap.keys (runOps sdk w ops).sessionFactory.SessionCache).Nodup ∧
    GoMap.get? (runOps sdk w ops).sessionFactory.SessionCache k = some v := by
  induction ops generalizing w with
  | nil => exact ⟨hkeys, hk⟩
  | cons op rest ih =>
    have h := FactoryOp.run_keeps sdk w op k v hkeys hk
    exact ih (op.run sdk w) h.1 h.2

/-- C7: once `GetSession(k)` has returned a session without error, after any
further steps of the run (calls of `GetSession` and `GenerateMasterSession`
with any keys, other remote calls) `GetSession(k)` returns that same session
without error and leaves the world as it is: no `NewSession` call is made and
the cache is unchanged; and the cache holds at most one entry for any key. -/
theorem GetSession_cached (sdk : SDK) (w w1 : World) (k : SessionKey) (s : Session)
    (ops : List FactoryOp)
    (hkeys : (GoMap.keys w.sessionFactory.SessionCache).Nodup)
    (hget : GetSession sdk w k = ((some s, none), w1)) :
    GetSession sdk (runOps sdk w1 ops) k = ((some s, none), runOps sdk w1 ops) ∧
    ∀ key, (GoMap.keys (runOps sdk w1 ops).sessionFactory.SessionCache).count key ≤ 1 := by
  have hk1 := GetSession_stores sdk w w1 k s hget
  have hkeys1 : (GoMap.keys w1.sessionFactory.SessionCache).Nodup := by
    rcases GetSession_cache sdk w k with h | ⟨_, v, h⟩
    · rw [hget] at h
      simp only [] at h
      rw [h]; exact hkeys
    · rw [hget] at h
      simp only [] at h
      rw [h]; exact GoMap.nodup_keys_set _ _ _ hkeys
  have h := runOps_keeps sdk ops w1 k (some s) hkeys1 hk1
  exact ⟨GetSession_hit sdk _ k (some s) h.2, fun key => List.nodup_iff_count_le_one.1 h.1 key⟩

theorem GetSession_cached_witness :
    (GoMap.keys sampleWorld.sessionFactory.SessionCache).Nodup ∧
    GetSession sampleSDK sampleWorld sampleKey =
      ((some 2, none), (GetSession sampleSDK sampleWorld sampleKey).2) ∧
    (GetSession sampleSDK
        (runOps sampleSDK (GetSession sampleSDK sampleWorld sampleKey).2
          [.getSession { sampleKey with Region := "eu-west-1" },
           .remote (Event.DescribeImages (some 2)), .generateMaster sampleKey])
        sampleKey =
      ((some 2, none),
        runOps sampleSDK (GetSession sampleSDK sampleWorld sampleKey).2
          [.getSession { sampleKey with Region := "eu-west-1" },
           .remote (Event.DescribeImages (some 2)), .generateMaster sampleKey]) ∧
      ∀ key,
        (GoMap.keys
          (runOps sampleSDK (GetSession sampleSDK sampleWorld sampleKey).2
            [.getSession { sampleKey with Region := "eu-west-1" },
             .remote (Event.DescribeImages (some 2)),
             .generateMaster sampleKey]).sessionFactory.SessionCache).count key ≤ 1) :=
  ⟨by decide, by decide,
    GetSession_cached sampleSDK sampleWorld _ sampleKey 2 _ (by decide) (by decide)⟩

/-! ## Go maps filled in a loop -/

/-- A map filled by a loop of assignments `m[key x] = val x`: its keys stay
distinct, they are the old keys and the keys assigned, and each key holds the
value assigned to it last. -/
theorem GoMap.foldl_set_spec {β κ ν : Type} [DecidableEq κ] (key : β → κ) (val : β → ν)
    (l : List β) (m : List (κ × ν)) :
    ((GoMap.keys m).Nodup →
      (GoMap.keys (l.foldl (fun m x => GoMap.set m (key x) (val x)) m)).Nodup) ∧
    (∀ q, q ∈ GoMap.keys (l.foldl (fun m x => GoMap.set m (key x) (val x)) m) ↔
      q ∈ GoMap.keys m ∨ ∃ x ∈ l, key x = q) ∧
    (∀ q, GoMap.get? (l.foldl (fun m x => GoMap.set m (key x) (val x)) m) q =
      match l.reverse.find? (fun x => decide (key x = q)) with
      | some x => some (val x)
      | none => GoMap.get? m q) := by
  induction l generalizing m with
  | nil => simp
  | cons a rest ih =>
    obtain ⟨ih1, ih2, ih3⟩ := ih (GoMap.set m (key a) (val a))
    refine ⟨fun h => ih1 (GoMap.nodup_keys_set _ _ _ h), ?_, ?_⟩
    · intro q
      rw [List.foldl_cons, ih2, GoMap.mem_keys_set]
      constructor
      · rintro ((h | h) | ⟨x, hx, hq⟩)
        · exact Or.inr ⟨a, by simp, h.symm⟩
        · exact Or.inl h
        · exact Or.inr ⟨x, by simp [hx], hq⟩
      · rintro (h | ⟨x, hx, hq⟩)
        · exact Or.inl (Or.inr h)
        · rcases List.mem_cons.1 hx with e | e
          · subst e; exact Or.inl (Or.inl hq.symm)
          · exact Or.inr ⟨x, e, hq⟩
    · intro q
      rw [List.foldl_cons, ih3, List.reverse_cons, List.find?_append, GoMap.get?_set]
      cases List.find? (fun x => decide (key x = q)) rest.reverse with
      | some x => simp
      | none =>
        by_cases hq : q = key a
        · simp [hq]
        · have hq2 : ¬ key a = q := fun e => hq e.symm
          simp [hq, hq2]

theorem foldl_snoc_eq {β : Type} (l acc : List β) :
    l.foldl (fun regions region => regions ++ [region]) acc = acc ++ l := by
  induction l generalizing acc with
  | nil => simp
  | cons a rest ih => simp [List.foldl_cons, ih]

/-! ## The region set -/

theorem regions_fold_spec (rs : List String) (m : List (String × Unit)) :
    ((GoMap.keys m).Nodup →
      (GoMap.keys (rs.foldl (fun m region => GoMap.set m region ()) m)).Nodup) ∧
    (∀ q, q ∈ GoMap.keys (rs.foldl (fun m region => GoMap.set m region ()) m) ↔
      q ∈ GoMap.keys m ∨ q ∈ rs) := by
  have h := GoMap.foldl_set_spec (fun region : String => region) (fun _ => ()) rs m
  refine ⟨h.1, fun q => ?_⟩
  rw [h.2.1 q]
  simp

theorem amis_fold_spec (amis : List (String × AMISelection)) (m : List (String × Unit)) :
    ((GoMap.keys m).Nodup →
      (GoMap.keys (amis.foldl
        (fun m amis => amis.2.Regions.foldl (fun m region => GoMap.set m region ()) m) m)).Nodup) ∧
    (∀ q, q ∈ GoMap.keys (amis.foldl
        (fun m amis => amis.2.Regions.foldl (fun m region => GoMap.set m region ()) m) m) ↔
      q ∈ GoMap.keys m ∨ ∃ g ∈ amis, q ∈ g.2.Regions) := by
  induction amis generalizing m with
  | nil => simp
  | cons a rest ih =>
    obtain ⟨r1, r2⟩ := regions_fold_spec a.2.Regions m
    obtain ⟨ih1, ih2⟩ := ih (a.2.Regions.foldl (fun m region => GoMap.set m region ()) m)
    refine ⟨fun h => ih1 (r1 h), fun q => ?_⟩
    rw [List.foldl_cons, ih2, r2]
    constructor
    · rintro ((h | h) | ⟨g, hg, hq⟩)
      · exact Or.inl h
      · exact Or.inr ⟨a, by simp, h⟩
      · exact Or.inr ⟨g, by simp [hg], hq⟩
    · rintro (h | ⟨g, hg, hq⟩)
      · exact Or.inl (Or.inl h)
      · rcases List.mem_cons.1 hg with e | e
        · subst e; exact Or.inl (Or.inr hq)
        · exact Or.inr ⟨g, e, hq⟩

theorem accounts_fold_spec (accounts : List Account) (m : List (String × Unit)) :
    ((GoMap.keys m).Nodup →
      (GoMap.keys (accounts.foldl
        (fun m account =>
          let m := account.Regions.foldl (fun m region => GoMap.set m region ()) m
          account.AMIs.foldl
            (fun m amis => amis.2.Regions.foldl (fun m region => GoMap.set m region ()) m) m)
        m)).Nodup) ∧
    (∀ q, q ∈ GoMap.keys (accounts.foldl
        (fun m account =>
          let m := account.Regions.foldl (fun m region => GoMap.set m region ()) m
          account.AMIs.foldl
            (fun m amis => amis.2.Regions.foldl (fun m region => GoMap.set m region ()) m) m)
        m) ↔
      q ∈ GoMap.keys m ∨ ∃ a ∈ accounts, q ∈ a.Regions ∨ ∃ g ∈ a.AMIs, q ∈ g.2.Regions) := by
  induction accounts generalizing m with
  | nil => simp
  | cons a rest ih =>
    obtain ⟨r1, r2⟩ := regions_fold_spec a.Regions m
    obtain ⟨g1, g2⟩ :=
      amis_fold_spec a.AMIs (a.Regions.foldl (fun m region => GoMap.set m region ()) m)
    obtain ⟨ih1, ih2⟩ := ih (a.AMIs.foldl
      (fun m amis => amis.2.Regions.foldl (fun m region => GoMap.set m region ()) m)
      (a.Regions.foldl (fun m region => GoMap.set m region ()) m))
    refine ⟨fun h => ih1 (g1 (r1 h)), fun q => ?_⟩
    rw [List.foldl_cons]
    simp only []
    rw [ih2, g2, r2]
    constructor
    · rintro (((h | h) | h) | ⟨b, hb, hq⟩)
      · exact Or.inl h
      · exact Or.inr ⟨a, by simp, Or.inl h⟩
      · exact Or.inr ⟨a, by simp, Or.inr h⟩
      · exact Or.inr ⟨b, by simp [hb], hq⟩
    · rintro (h | ⟨b, hb, hq⟩)
      · exact Or.inl (Or.inl (Or.inl h))
      · rcases List.mem_cons.1 hb with e | e
        · subst e
          rcases hq with hq | hq
          · exact Or.inl (Or.inl (Or.inr hq))
          · exact Or.inl (Or.inr hq)
        · exact Or.inr ⟨b, e, hq⟩

/-- C8: for every configuration whose region cache is empty, `ScanRegions`
returns a list without repetition whose elements are exactly the regions of
the target accounts and the regions of their image groups, in whatever order
the runtime ranges over the map of regions. -/
theorem ScanRegions_union (visit : List String → List String)
    (hvisit : ∀ l, (visit l).Perm l) (config : Config) (hcache : config.regions = []) :
    (config.ScanRegions visit).1.Nodup ∧
    ∀ r, r ∈ (config.ScanRegions visit).1 ↔
      ∃ a ∈ config.TargetAccounts, r ∈ a.Regions ∨ ∃ g ∈ a.AMIs, r ∈ g.2.Regions := by
  have hspec := accounts_fold_spec config.TargetAccounts []
  have hval : (config.ScanRegions visit).1 = visit (GoMap.keys (uniqueRegionsMap config)) := by
    unfold Config.ScanRegions
    rw [hcache]
    simp [foldl_snoc_eq]
  rw [hval]
  constructor
  · exact (hvisit _).nodup_iff.2 (hspec.1 (by simp [GoMap.keys]))
  · intro r
    rw [(hvisit _).mem_iff]
    unfold uniqueRegionsMap
    rw [hspec.2 r]
    simp [GoMap.keys]

theorem ScanRegions_union_witness :
    (∀ l : List String, l.reverse.Perm l) ∧ sampleConfig.regions = [] ∧
    (sampleConfig.ScanRegions List.reverse).1 = ["us-east-1", "eu-west-1"] ∧
    ((sampleConfig.ScanRegions List.reverse).1.Nodup ∧
      ∀ r, r ∈ (sampleConfig.ScanRegions List.reverse).1 ↔
        ∃ a ∈ sampleConfig.TargetAccounts, r ∈ a.Regions ∨ ∃ g ∈ a.AMIs, r ∈ g.2.Regions) :=
  ⟨fun l => List.reverse_perm l, rfl, by decide,
    ScanRegions_union List.reverse (fun l => List.reverse_perm l) sampleConfig rfl⟩

/-! ## Filtering the source inventory -/

theorem groupRegions_eq (account : Account) (ami : AMISelection) :
    groupRegions account ami = if ami.Regions = [] then account.Regions else ami.Regions := by
  unfold groupRegions
  cases h : ami.Regions with
  | nil => simp
  | cons r rs => simp

/-- The `regionImages` of one group: one entry per region of the list, each
holding the result of `ApplyFilters` on the source images of that region. -/
theorem filterRegions_spec {α : Type} [Image α] (sort : List α → List α)
    (sourceImages : ImagesByRegion α) (regions : List String) (filters : List Filter) :
    (GoMap.keys (filterRegions sort sourceImages regions filters)).Nodup ∧
    (∀ r, r ∈ GoMap.keys (filterRegions sort sourceImages regions filters) ↔ r ∈ regions) ∧
    (∀ r ∈ regions, GoMap.get? (filterRegions sort sourceImages regions filters) r =
      some (ApplyFilters sort (imagesAt sourceImages r) filters)) ∧
    (∀ r images, GoMap.get? (filterRegions sort sourceImages regions filters) r = some images →
      images.length ≤ 1) := by
  have h := GoMap.foldl_set_spec (fun region : String => region)
    (fun region => ApplyFilters sort (imagesAt sourceImages region) filters) regions []
  have hget : ∀ r, GoMap.get? (filterRegions sort sourceImages regions filters) r =
      if r ∈ regions then some (ApplyFilters sort (imagesAt sourceImages r) filters)
      else none := by
    intro r
    unfold filterRegions
    rw [h.2.2 r]
    cases hf : List.find? (fun x => decide (x = r)) regions.reverse with
    | some x =>
      have hx : x = r := by simpa using List.find?_some hf
      have hmem : x ∈ regions := List.mem_reverse.1 (List.mem_of_find?_eq_some hf)
      subst hx
      simp [hmem]
    | none =>
      rw [List.find?_eq_none] at hf
      have hnot : r ∉ regions := by
        intro hr
        have := hf r (List.mem_reverse.2 hr)
        simp at this
      simp [hnot, GoMap.get?]
  refine ⟨h.1 (by simp [GoMap.keys]), ?_, ?_, ?_⟩
  · intro r
    unfold filterRegions
    rw [h.2.1 r]
    simp [GoMap.keys]
  · intro r hr
    rw [hget r, if_pos hr]
  · intro r images hr
    rw [hget r] at hr
    split at hr
    · cases hr
      exact ApplyFilters_length_le _ _ _
    · cases hr

/-- C9: for every source inventory and every target account, `FilterAMIs`
returns a mapping with exactly one entry per image group of the account; the
entry of a group has exactly the regions of the group (its own when it has
any, otherwise those of the account), its value at each of these regions is
`ApplyFilters` of the source images of the region with the filters of the
group, and every value holds at most one image. -/
theorem FilterAMIs_entries {α : Type} [Image α] (sort : List α → List α)
    (sourceImages : ImagesByRegion α) (account : Account)
    (hkeys : (GoMap.keys account.AMIs).Nodup) :
    (GoMap.keys (FilterAMIs sort sourceImages account)).Nodup ∧
    (∀ g, g ∈ GoMap.keys (FilterAMIs sort sourceImages account) ↔ g ∈ GoMap.keys account.AMIs) ∧
    ∀ g ami, (g, ami) ∈ account.AMIs →
      ∃ regionImages, GoMap.get? (FilterAMIs sort sourceImages account) g = some regionImages ∧
        (GoMap.keys regionImages).Nodup ∧
        (∀ r, r ∈ GoMap.keys regionImages ↔
          r ∈ (if ami.Regions = [] then account.Regions else ami.Regions)) ∧
        (∀ r ∈ (if ami.Regions = [] then account.Regions else ami.Regions),
          GoMap.get? regionImages r =
            some (ApplyFilters sort (imagesAt sourceImages r) ami.Filters)) ∧
        (∀ r images, GoMap.get? regionImages r = some images → images.length ≤ 1) := by
  have h := GoMap.foldl_set_spec (fun entry : String × AMISelection => entry.1)
    (fun entry => filterRegions sort sourceImages (groupRegions account entry.2) entry.2.Filters)
    account.AMIs []
  refine ⟨h.1 (by simp [GoMap.keys]), ?_, ?_⟩
  · intro g
    unfold FilterAMIs
    rw [h.2.1 g]
    simp [GoMap.keys]
  · intro g ami hmem
    refine ⟨filterRegions sort sourceImages (groupRegions account ami) ami.Filters, ?_, ?_⟩
    · unfold FilterAMIs
      rw [h.2.2 g]
      cases hf : List.find? (fun x : String × AMISelection => decide (x.1 = g))
          account.AMIs.reverse with
      | some x =>
        have hx : x.1 = g := by simpa using List.find?_some hf
        have hxmem : x ∈ account.AMIs := List.mem_reverse.1 (List.mem_of_find?_eq_some hf)
        have heq : x = (g, ami) :=
          List.inj_on_of_nodup_map hkeys hxmem hmem hx
        subst heq
        rfl
      | none =>
        rw [List.find?_eq_none] at hf
        have := hf (g, ami) (List.mem_reverse.2 hmem)
        simp at this
    · rw [← groupRegions_eq]
      exact filterRegions_spec sort sourceImages (groupRegions account ami) ami.Filters

theorem FilterAMIs_entries_witness :
    (GoMap.keys twoGroupTarget.AMIs).Nodup ∧
    FilterAMIs insertionSort sampleInventory twoGroupTarget =
      [("linux", [("us-east-1", [sampleImage "p3" 30 "prod"])]),
       ("dev", [("eu-west-1", []), ("us-east-1", [sampleImage "d1" 40 "dev"])])] ∧
    ((GoMap.keys (FilterAMIs insertionSort sampleInventory twoGroupTarget)).Nodup ∧
    (∀ g, g ∈ GoMap.keys (FilterAMIs insertionSort sampleInventory twoGroupTarget) ↔
      g ∈ GoMap.keys twoGroupTarget.AMIs) ∧
    ∀ g ami, (g, ami) ∈ twoGroupTarget.AMIs →
      ∃ regionImages,
        GoMap.get? (FilterAMIs insertionSort sampleInventory twoGroupTarget) g =
          some regionImages ∧
        (GoMap.keys regionImages).Nodup ∧
        (∀ r, r ∈ GoMap.keys regionImages ↔
          r ∈ (if ami.Regions = [] then twoGroupTarget.Regions else ami.Regions)) ∧
        (∀ r ∈ (if ami.Regions = [] then twoGroupTarget.Regions else ami.Regions),
          GoMap.get? regionImages r =
            some (ApplyFilters insertionSort (imagesAt sampleInventory r) ami.Filters)) ∧
        (∀ r images, GoMap.get? regionImages r = some images → images.length ≤ 1)) :=
  ⟨by decide, by decide,
    FilterAMIs_entries insertionSort sampleInventory twoGroupTarget (by decide)⟩

/-! ## The calls of a dry run -/

theorem Extends.refl (P : Event → Prop) (t : List Event) : Extends P t t :=
  ⟨[], by simp, by simp⟩

theorem Extends.trans {P : Event → Prop} {t u v : List Event} (h1 : Extends P t u)
    (h2 : Extends P u v) : Extends P t v := by
  obtain ⟨a, rfl, ha⟩ := h1
  obtain ⟨b, rfl, hb⟩ := h2
  refine ⟨a ++ b, by simp, ?_⟩
  intro e he
  rcases List.mem_append.1 he with h | h
  · exact ha e h
  · exact hb e h

theorem Extends.snoc {P : Event → Prop} (t : List Event) (e : Event) (h : P e) :
    Extends P t (t ++ [e]) :=
  ⟨[e], rfl, by simpa using h⟩

theorem GetSession_extends (P : Event → Prop) (hP : ∀ region assume, P (.NewSession region assume))
    (sdk : SDK) (w : World) (k : SessionKey) :
    Extends P w.trace (GetSession sdk w k).2.trace := by
  unfold GetSession
  cases GoMap.get? w.sessionFactory.SessionCache k with
  | some sess => exact Extends.refl P _
  | none =>
    cases w.sessionFactory.MasterSession with
    | none => exact Extends.refl P _
    | some master =>
      simp only []
      cases (sdk.NewSession w.trace k.Region (some (master, k.AssumeRole))).2 with
      | some err => exact Extends.snoc _ _ (hP _ _)
      | none => exact Extends.snoc _ _ (hP _ _)

theorem scanBlockDevices_extends (P : Event → Prop) (hP : ∀ svc id, P (.DescribeTags svc id))
    (sdk : SDK) (svc : Option Session) (devices : List (Option BlockDeviceMapping))
    (snapshots : List String) (snapshotTags : List (String × List Tag)) (trace : List Event) :
    Extends P trace (scanBlockDevices sdk svc devices snapshots snapshotTags trace).2.2.2 := by
  induction devices generalizing snapshots snapshotTags trace with
  | nil => exact Extends.refl P _
  | cons d rest ih =>
    unfold scanBlockDevices
    cases d.bind BlockDeviceMapping.Ebs with
    | none => exact ih _ _ _
    | some ebs =>
      simp only []
      cases sdk.DescribeTags trace svc (StringValue ebs.SnapshotId) with
      | error err => exact Extends.snoc _ _ (hP _ _)
      | ok tagsOutput => exact (Extends.snoc _ _ (hP _ _)).trans (ih _ _ _)

theorem listImages_extends (P : Event → Prop) (hP : ∀ svc id, P (.DescribeTags svc id))
    (sdk : SDK) (svc : Option Session) (outs : List ImageDescription) (images : List EC2Image)
    (trace : List Event) :
    Extends P trace (listImages sdk svc outs images trace).2 := by
  induction outs generalizing images trace with
  | nil => exact Extends.refl P _
  | cons out rest ih =>
    unfold listImages
    have h := scanBlockDevices_extends P hP sdk svc out.BlockDeviceMappings [] [] trace
    rcases hs : scanBlockDevices sdk svc out.BlockDeviceMappings [] [] trace with
      ⟨err, snapshots, snapshotTags, trace2⟩
    rw [hs] at h
    cases err with
    | some e => exact h
    | none => exact h.trans (ih _ _)

theorem ListAMIs_extends (P : Event → Prop) (hP : ∀ svc id, P (.DescribeTags svc id))
    (hI : ∀ svc, P (.DescribeImages svc)) (sdk : SDK) (sess : Option Session)
    (trace : List Event) : Extends P trace (ListAMIs sdk sess trace).2 := by
  unfold ListAMIs
  simp only []
  cases sdk.DescribeImages trace sess with
  | error err => exact Extends.snoc _ _ (hI _)
  | ok images => exact (Extends.snoc _ _ (hI _)).trans (listImages_extends P hP sdk sess _ _ _)

theorem scanEach_extends (P : Event → Prop) (hP : ∀ e, e.readOnly = true → P e)
    (sdk : SDK) (account : Account) (regions : List String)
    (regionImages : ImagesByRegion EC2Image) (w : World) :
    Extends P w.trace (scanEach sdk account regions regionImages w).2.trace := by
  induction regions generalizing regionImages w with
  | nil => exact Extends.refl P _
  | cons region rest ih =>
    unfold scanEach
    simp only []
    have hg := GetSession_extends P (fun _ _ => hP _ rfl) sdk w (AccountSessionKey account region)
    cases (GetSession sdk w (AccountSessionKey account region)).1.2 with
    | some err => exact hg
    | none =>
      simp only []
      have hl := ListAMIs_extends P (fun _ _ => hP _ rfl) (fun _ => hP _ rfl) sdk
        (GetSession sdk w (AccountSessionKey account region)).1.1
        (GetSession sdk w (AccountSessionKey account region)).2.trace
      cases (ListAMIs sdk (GetSession sdk w (AccountSessionKey account region)).1.1
          (GetSession sdk w (AccountSessionKey account region)).2.trace).1.2 with
      | some err => exact hg.trans hl
      | none => exact (hg.trans hl).trans (ih _ _)

theorem ScanForAMIs_extends (P : Event → Prop) (hP : ∀ e, e.readOnly = true → P e)
    (sdk : SDK) (w : World) (account : Account) :
    Extends P w.trace (ScanForAMIs sdk w account).2.trace := by
  unfold ScanForAMIs
  exact scanEach_extends P hP sdk account _ _ _

theorem WritePlan_extends (P : Event → Prop) (sdk : SDK) (params : ShareParams)
    (hP : ∀ raw, P (.WriteFile params.PlanFile raw)) (plan : AMISharePlan) (trace : List Event) :
    Extends P trace (WritePlan sdk params plan trace).2 := by
  unfold WritePlan
  simp only []
  cases (sdk.Marshal plan).2 with
  | some err => exact Extends.refl P _
  | none => exact Extends.snoc _ _ (hP _)

/-- Each of the three methods `ShareWithAccount`, `AddTags` and `CopyTags`
starts with a call that changes remote state. -/
theorem methods_start_mutating (sdk : SDK) (e : EC2Image) (trace : List Event) :
    (∀ accountId shareSnapshots, ∃ call rest,
      (e.ShareWithAccount sdk accountId shareSnapshots trace).2 = trace ++ call :: rest ∧
      call.mutating = true) ∧
    (∀ tags tagSnapshots, ∃ call rest,
      (e.AddTags sdk tags tagSnapshots trace).2 = trace ++ call :: rest ∧
      call.mutating = true) ∧
    (∀ sess shareSnapshots, ∃ call rest,
      (e.CopyTags sdk sess shareSnapshots trace).2 = trace ++ call :: rest ∧
      call.mutating = true) := by
  have hshare : ∀ svc account (l : List String) (t : List Event),
      ∃ rest, (shareSnapshotsEach sdk svc account l t).2 = t ++ rest := by
    intro svc account l
    induction l with
    | nil => intro t; exact ⟨[], by simp [shareSnapshotsEach]⟩
    | cons a rest ih =>
      intro t
      unfold shareSnapshotsEach
      simp only []
      cases sdk.ModifySnapshotAttribute t svc a account with
      | some err => exact ⟨_, rfl⟩
      | none =>
        obtain ⟨r, hr⟩ := ih (t ++ [Event.ModifySnapshotAttribute svc a account])
        exact ⟨_, by rw [hr, List.append_assoc]⟩
  have htags : ∀ svc (l : List (String × List Tag)) (t : List Event),
      ∃ rest, (createTagsEach sdk svc l t).2 = t ++ rest := by
    intro svc l
    induction l with
    | nil => intro t; exact ⟨[], by simp [createTagsEach]⟩
    | cons a rest ih =>
      intro t
      obtain ⟨resource, tags⟩ := a
      unfold createTagsEach
      simp only []
      cases sdk.CreateTags t svc resource tags with
      | some err => exact ⟨_, rfl⟩
      | none =>
        obtain ⟨r, hr⟩ := ih (t ++ [Event.CreateTags svc resource tags])
        exact ⟨_, by rw [hr, List.append_assoc]⟩
  refine ⟨?_, ?_, ?_⟩
  · intro accountId shareSnapshots
    unfold EC2Image.ShareWithAccount
    simp only []
    cases sdk.ModifyImageAttribute trace e.svc e.id accountId with
    | some err => exact ⟨_, [], rfl, rfl⟩
    | none =>
      cases shareSnapshots with
      | false => exact ⟨_, [], rfl, rfl⟩
      | true =>
        obtain ⟨r, hr⟩ := hshare e.svc accountId e.snapshots
          (trace ++ [Event.ModifyImageAttribute e.svc e.id accountId])
        refine ⟨Event.ModifyImageAttribute e.svc e.id accountId, r, ?_, rfl⟩
        simp [hr]
  · intro tags tagSnapshots
    unfold EC2Image.AddTags
    simp only []
    generalize List.foldl
      (fun (awsTags : List Tag) (kv : String × String) =>
        awsTags ++ [{ Key := some kv.1, Value := some kv.2 }]) [] tags = awsTags
    cases sdk.CreateTags trace e.svc e.id awsTags with
    | some err => exact ⟨_, [], rfl, rfl⟩
    | none =>
      cases tagSnapshots with
      | false => exact ⟨_, [], rfl, rfl⟩
      | true =>
        obtain ⟨r, hr⟩ := htags e.svc (e.snapshots.map (fun snapshotId => (snapshotId, awsTags)))
          (trace ++ [Event.CreateTags e.svc e.id awsTags])
        refine ⟨Event.CreateTags e.svc e.id awsTags, r, ?_, rfl⟩
        simp [hr]
  · intro sess shareSnapshots
    unfold EC2Image.CopyTags
    simp only []
    cases sdk.CreateTags trace sess e.id e.tags with
    | some err => exact ⟨_, [], rfl, rfl⟩
    | none =>
      cases shareSnapshots with
      | false => exact ⟨_, [], rfl, rfl⟩
      | true =>
        obtain ⟨r, hr⟩ := htags sess e.snapshotTags (trace ++ [Event.CreateTags sess e.id e.tags])
        refine ⟨Event.CreateTags sess e.id e.tags, r, ?_, rfl⟩
        simp [hr]

/-- C10: for every configuration and every answer of the outside world, a
`Run` with `NoDryRun` false issues no call that changes remote state (no
`ModifyImageAttribute`, `ModifySnapshotAttribute` or `CreateTags`, the calls
with which `ShareWithAccount`, `AddTags` and `CopyTags` start): every call it
issues is a read-only call or the write of the plan file. -/
theorem Run_dry_issues_no_mutation (sdk : SDK) (sort : List EC2Image → List EC2Image)
    (params : ShareParams) (w : World) (hdry : params.NoDryRun = false) :
    ∃ issued, (Run sdk sort params w).2.trace = w.trace ++ issued ∧
      (∀ e ∈ issued, e.mutating = false) ∧
      (∀ e ∈ issued, e.readOnly = true ∨ ∃ raw, e = Event.WriteFile params.PlanFile raw) := by
  have hscan := ScanForAMIs_extends
    (fun e => e.readOnly = true ∨ ∃ raw, e = Event.WriteFile params.PlanFile raw)
    (fun e he => Or.inl he) sdk w w.Config.SourceAccount
  have hrun : Extends
      (fun e => e.readOnly = true ∨ ∃ raw, e = Event.WriteFile params.PlanFile raw)
      w.trace (Run sdk sort params w).2.trace := by
    unfold Run
    simp only []
    cases (ScanForAMIs sdk w w.Config.SourceAccount).1.2 with
    | some err => exact hscan
    | none =>
      simp only []
      have hplan := WritePlan_extends
        (fun e => e.readOnly = true ∨ ∃ raw, e = Event.WriteFile params.PlanFile raw)
        sdk params (fun raw => Or.inr ⟨raw, rfl⟩)
      rw [hdry]
      split
      · exact hscan.trans (hplan _ _)
      · exact hscan.trans (hplan _ _)
  obtain ⟨issued, heq, hall⟩ := hrun
  refine ⟨issued, heq, ?_, hall⟩
  intro e he
  rcases hall e he with h | ⟨raw, h⟩
  · cases e <;> simp [Event.readOnly] at h <;> rfl
  · subst h; rfl

theorem Run_dry_issues_no_mutation_witness :
    dryParams.NoDryRun = false ∧
    (Run sampleSDK insertionSort dryParams sampleWorld).2.trace =
      sampleWorld.trace ++
        [Event.NewSession "us-east-1" (some (1, "ami-share")),
         Event.DescribeImages (some 2),
         Event.DescribeTags (some 2) "snap-p1",
         Event.DescribeTags (some 2) "snap-p2",
         Event.DescribeTags (some 2) "snap-d1",
         Event.NewSession "eu-west-1" (some (1, "ami-share")),
         Event.DescribeImages (some 7),
         Event.DescribeTags (some 7) "snap-p1",
         Event.DescribeTags (some 7) "snap-p2",
         Event.DescribeTags (some 7) "snap-d1",
         Event.WriteFile "plan.yaml" "plan"] ∧
    ∃ issued, (Run sampleSDK insertionSort dryParams sampleWorld).2.trace =
        sampleWorld.trace ++ issued ∧
      (∀ e ∈ issued, e.mutating = false) ∧
      (∀ e ∈ issued, e.readOnly = true ∨ ∃ raw, e = Event.WriteFile dryParams.PlanFile raw) :=
  ⟨rfl, by decide, Run_dry_issues_no_mutation sampleSDK insertionSort dryParams sampleWorld rfl⟩

/-! ## Every region a group is filtered in has been scanned -/

theorem mem_ScanRegions_iff (visit : List String → List String)
    (hvisit : ∀ l, (visit l).Perm l) (config : Config) (hcache : config.regions = []) (r : String) :
    r ∈ (config.ScanRegions visit).1 ↔
      ∃ a ∈ config.TargetAccounts, r ∈ a.Regions ∨ ∃ g ∈ a.AMIs, r ∈ g.2.Regions := by
  have hspec := accounts_fold_spec config.TargetAccounts []
  have hval : (config.ScanRegions visit).1 = visit (GoMap.keys (uniqueRegionsMap config)) := by
    unfold Config.ScanRegions
    rw [hcache]
    simp [foldl_snoc_eq]
  rw [hval, (hvisit _).mem_iff]
  unfold uniqueRegionsMap
  rw [hspec.2 r]
  simp [GoMap.keys]

/-- A scan that returns without error has an entry for every region of its
list. -/
theorem scanEach_keys (sdk : SDK) (account : Account) (regions : List String)
    (regionImages out : ImagesByRegion EC2Image) (w w' : World)
    (h : scanEach sdk account regions regionImages w = ((out, none), w')) :
    ∀ r, r ∈ GoMap.keys regionImages ∨ r ∈ regions → r ∈ GoMap.keys out := by
  induction regions generalizing regionImages w with
  | nil =>
    unfold scanEach at h
    simp only [Prod.mk.injEq] at h
    obtain ⟨⟨h1, _⟩, _⟩ := h
    subst h1
    intro r hr
    rcases hr with hr | hr
    · exact hr
    · simp at hr
  | cons region rest ih =>
    unfold scanEach at h
    simp only [] at h
    cases hg : (GetSession sdk w (AccountSessionKey account region)).1.2 with
    | some err =>
      rw [hg] at h
      simp at h
    | none =>
      rw [hg] at h
      simp only [] at h
      cases hl : (ListAMIs sdk (GetSession sdk w (AccountSessionKey account region)).1.1
          (GetSession sdk w (AccountSessionKey account region)).2.trace).1.2 with
      | some err =>
        rw [hl] at h
        simp at h
      | none =>
        rw [hl] at h
        simp only [] at h
        intro r hr
        apply ih _ _ h r
        rcases hr with hr | hr
        · exact Or.inl ((GoMap.mem_keys_set _ _ _ _).2 (Or.inr hr))
        · rcases List.mem_cons.1 hr with e | e
          · exact Or.inl ((GoMap.mem_keys_set _ _ _ _).2 (Or.inl e))
          · exact Or.inr e

/-- C16: for every configuration whose region cache is empty, every region
of the effective region list of every image group of every target account
(the regions of the group, or of the account when the group has none) is an
element of `ScanRegions()`; hence a scan that returns without error holds an
entry for every region that `FilterAMIs` looks up. -/
theorem groupRegions_scanned (sdk : SDK) (hvisit : ∀ l, (sdk.visit l).Perm l) (w : World)
    (hcache : w.Config.regions = []) :
    (∀ a ∈ w.Config.TargetAccounts, ∀ g ∈ a.AMIs,
      ∀ r ∈ (if g.2.Regions = [] then a.Regions else g.2.Regions),
        r ∈ (w.Config.ScanRegions sdk.visit).1) ∧
    (∀ account regionImages w',
      ScanForAMIs sdk w account = ((regionImages, none), w') →
      ∀ a ∈ w.Config.TargetAccounts, ∀ g ∈ a.AMIs,
        ∀ r ∈ (if g.2.Regions = [] then a.Regions else g.2.Regions),
          r ∈ GoMap.keys regionImages) := by
  have hfirst : ∀ a ∈ w.Config.TargetAccounts, ∀ g ∈ a.AMIs,
      ∀ r ∈ (if g.2.Regions = [] then a.Regions else g.2.Regions),
        r ∈ (w.Config.ScanRegions sdk.visit).1 := by
    intro a ha g hg r hr
    rw [mem_ScanRegions_iff sdk.visit hvisit w.Config hcache]
    refine ⟨a, ha, ?_⟩
    by_cases hempty : g.2.Regions = []
    · rw [if_pos hempty] at hr
      exact Or.inl hr
    · rw [if_neg hempty] at hr
      exact Or.inr ⟨g, hg, hr⟩
  refine ⟨hfirst, ?_⟩
  intro account regionImages w' hscan a ha g hg r hr
  unfold ScanForAMIs at hscan
  exact scanEach_keys sdk account _ _ _ _ _ hscan r (Or.inr (hfirst a ha g hg r hr))

theorem groupRegions_scanned_witness :
    (∀ l : List String, (sampleSDK.visit l).Perm l) ∧
    ({ sampleWorld with Config := { sampleConfig with TargetAccounts := [twoGroupTarget] } } :
      World).Config.regions = [] ∧
    (({ sampleConfig with TargetAccounts := [twoGroupTarget] } : Config).ScanRegions
      sampleSDK.visit).1 = ["us-east-1", "eu-west-1"] ∧
    ((∀ a ∈ ({ sampleConfig with TargetAccounts := [twoGroupTarget] } : Config).TargetAccounts,
      ∀ g ∈ a.AMIs, ∀ r ∈ (if g.2.Regions = [] then a.Regions else g.2.Regions),
        r ∈ (({ sampleConfig with TargetAccounts := [twoGroupTarget] } : Config).ScanRegions
          sampleSDK.visit).1) ∧
    (∀ account regionImages w',
      ScanForAMIs sampleSDK
        { sampleWorld with Config := { sampleConfig with TargetAccounts := [twoGroupTarget] } }
        account = ((regionImages, none), w') →
      ∀ a ∈ ({ sampleConfig with TargetAccounts := [twoGroupTarget] } : Config).TargetAccounts,
        ∀ g ∈ a.AMIs, ∀ r ∈ (if g.2.Regions = [] then a.Regions else g.2.Regions),
          r ∈ GoMap.keys regionImages)) :=
  ⟨fun l => List.reverse_perm l, rfl, by decide,
    groupRegions_scanned sampleSDK (fun l => List.reverse_perm l)
      { sampleWorld with Config := { sampleConfig with TargetAccounts := [twoGroupTarget] } } rfl⟩

/-! ## Live execution: a failed share ends the loop of its region only -/

theorem shareSnapshotsEach_extends (sdk : SDK) (svc : Option Session) (account : String)
    (snapshots : List String) (trace : List Event) :
    Extends (fun e => e.shares = true) trace
      (shareSnapshotsEach sdk svc account snapshots trace).2 := by
  induction snapshots generalizing trace with
  | nil => exact Extends.refl _ _
  | cons s rest ih =>
    unfold shareSnapshotsEach
    simp only []
    cases sdk.ModifySnapshotAttribute trace svc s account with
    | some err => exact Extends.snoc _ _ rfl
    | none =>
      have h1 : Extends (fun e : Event => e.shares = true) trace
          (trace ++ [Event.ModifySnapshotAttribute svc s account]) := Extends.snoc _ _ rfl
      exact h1.trans (ih _)

/-- The calls of `ShareWithAccount` are share calls only. -/
theorem ShareWithAccount_extends (sdk : SDK) (e : EC2Image) (accountId : String)
    (shareSnapshots : Bool) (trace : List Event) :
    Extends (fun e => e.shares = true) trace
      (e.ShareWithAccount sdk accountId shareSnapshots trace).2 := by
  unfold EC2Image.ShareWithAccount
  simp only []
  cases sdk.ModifyImageAttribute trace e.svc e.id accountId with
  | some err => exact Extends.snoc _ _ rfl
  | none =>
    cases shareSnapshots with
    | false => exact Extends.snoc _ _ rfl
    | true =>
      have h1 : Extends (fun e : Event => e.shares = true) trace
          (trace ++ [Event.ModifyImageAttribute e.svc e.id accountId]) := Extends.snoc _ _ rfl
      exact h1.trans (shareSnapshotsEach_extends sdk _ _ _ _)

/-- The three outer loops of `Run` run the innermost loop on every unit of
the plan, one after the other. -/
theorem executePlan_eq_foldl (sdk : SDK) (params : ShareParams) (plan : AMISharePlan)
    (w : World) :
    executePlan sdk params plan w =
      (planUnits plan).foldl
        (fun w u => shareImages sdk params u.1 u.2.2.1 u.2.2.2 w) w := by
  unfold executePlan planUnits
  generalize plan.TargetAccounts = accounts
  induction accounts generalizing w with
  | nil => rfl
  | cons account rest ih =>
    rw [List.foldl_cons, ih, List.flatMap_cons, List.foldl_append]
    congr 1
    generalize account.AMIs = groups
    induction groups generalizing w with
    | nil => rfl
    | cons group more ihg =>
      rw [List.foldl_cons, ihg, List.flatMap_cons, List.foldl_append]
      congr 1
      generalize group.2 = regions
      induction regions generalizing w with
      | nil => rfl
      | cons amis others ihr =>
        rw [List.foldl_cons, ihr, List.map_cons, List.foldl_cons]

/-- C11: when the innermost loop of a live `Run` reaches an image whose
`ShareWithAccount` fails, the loop of that region ends there: the only calls
made are the share calls of `ShareWithAccount` itself (no tagging, no session,
no tag copy, for this image or for the images after it in the region), and the
session cache is untouched; the outer loops still run the innermost loop on
every unit (account, group, region) of the plan, so the units after the
failing one are processed from the world this leaves. -/
theorem share_failure_breaks_region_only (sdk : SDK) (params : ShareParams)
    (account : AMISharePlanAccount) (region : String) (ami : EC2Image) (rest : List EC2Image)
    (w : World) (err : String)
    (hfail : (ami.ShareWithAccount sdk account.ID params.ShareSnapshots w.trace).1 = some err) :
    shareImages sdk params account region (ami :: rest) w =
      { w with trace := (ami.ShareWithAccount sdk account.ID params.ShareSnapshots w.trace).2 } ∧
    (∃ issued,
      (shareImages sdk params account region (ami :: rest) w).trace = w.trace ++ issued ∧
      ∀ e ∈ issued, e.shares = true) ∧
    ∀ (plan : AMISharePlan) (w0 : World) (group : String)
      (before after : List (AMISharePlanAccount × String × String × List EC2Image)),
      planUnits plan = before ++ (account, group, region, ami :: rest) :: after →
      before.foldl (fun w u => shareImages sdk params u.1 u.2.2.1 u.2.2.2 w) w0 = w →
      executePlan sdk params plan w0 =
        after.foldl (fun w u => shareImages sdk params u.1 u.2.2.1 u.2.2.2 w)
          { w with
            trace := (ami.ShareWithAccount sdk account.ID params.ShareSnapshots w.trace).2 } := by
  have hloop : shareImages sdk params account region (ami :: rest) w =
      { w with
        trace := (ami.ShareWithAccount sdk account.ID params.ShareSnapshots w.trace).2 } := by
    rw [shareImages]
    simp only []
    rw [hfail]
  refine ⟨hloop, ?_, ?_⟩
  · rw [hloop]
    exact ShareWithAccount_extends sdk ami account.ID params.ShareSnapshots w.trace
  · intro plan w0 group before after hunits hw
    rw [executePlan_eq_foldl, hunits, List.foldl_append, List.foldl_cons, hw]
    simp only []
    rw [hloop]

theorem share_failure_breaks_region_only_witness :
    (((Run shareFailSDK insertionSort liveParams twoGroupWorld).2.trace.drop 12).take 3 =
      [Event.ModifyImageAttribute (some 2) "p2" "222222222222",
       Event.ModifyImageAttribute (some 7) "d1" "222222222222",
       Event.ModifySnapshotAttribute (some 7) "snap-d1" "222222222222"]) ∧
    ((sampleImage "p2" 20 "prod").ShareWithAccount shareFailSDK samplePlanAccount.ID
      liveParams.ShareSnapshots sampleWorld.trace).1 = some "AuthFailure" ∧
    (shareImages shareFailSDK liveParams samplePlanAccount "us-east-1"
        (sampleImage "p2" 20 "prod" :: [sampleImage "p1" 10 "prod"]) sampleWorld =
      { sampleWorld with
        trace := ((sampleImage "p2" 20 "prod").ShareWithAccount shareFailSDK samplePlanAccount.ID
          liveParams.ShareSnapshots sampleWorld.trace).2 } ∧
    (∃ issued,
      (shareImages shareFailSDK liveParams samplePlanAccount "us-east-1"
        (sampleImage "p2" 20 "prod" :: [sampleImage "p1" 10 "prod"]) sampleWorld).trace =
        sampleWorld.trace ++ issued ∧
      ∀ e ∈ issued, e.shares = true) ∧
    ∀ (plan : AMISharePlan) (w0 : World) (group : String)
      (before after : List (AMISharePlanAccount × String × String × List EC2Image)),
      planUnits plan =
        before ++ (samplePlanAccount, group, "us-east-1",
          sampleImage "p2" 20 "prod" :: [sampleImage "p1" 10 "prod"]) :: after →
      before.foldl (fun w u => shareImages shareFailSDK liveParams u.1 u.2.2.1 u.2.2.2 w) w0 =
        sampleWorld →
      executePlan shareFailSDK liveParams plan w0 =
        after.foldl (fun w u => shareImages shareFailSDK liveParams u.1 u.2.2.1 u.2.2.2 w)
          { sampleWorld with
            trace := ((sampleImage "p2" 20 "prod").ShareWithAccount shareFailSDK
              samplePlanAccount.ID liveParams.ShareSnapshots sampleWorld.trace).2 }) :=
  ⟨by decide, by decide,
    share_failure_breaks_region_only shareFailSDK liveParams samplePlanAccount "us-east-1"
      (sampleImage "p2" 20 "prod") [sampleImage "p1" 10 "prod"] sampleWorld "AuthFailure"
      (by decide)⟩

/-! ## What `Run` returns -/

/-- The only error `Run` returns is the error of the scan. -/
theorem Run_error_eq_scan_error (sdk : SDK) (sort : List EC2Image → List EC2Image)
    (params : ShareParams) (w : World) :
    (Run sdk sort params w).1 = (ScanForAMIs sdk w w.Config.SourceAccount).1.2 := by
  unfold Run
  simp only []
  cases hs : (ScanForAMIs sdk w w.Config.SourceAccount).1.2 with
  | some err => rfl
  | none =>
    simp only []
    split
    · rfl
    · split <;> rfl

/-- C12, on the code: `Run` returns the error of the scan and nothing else.
When the scan succeeds and the plan file cannot be written (`WriteFile`
answers with an error) or the plan cannot be serialised, `Run` returns `nil`,
in a dry run and in a live run; the live run whose plan file could not be
written goes on to share. Share and tag failures are not returned either. -/
theorem Run_swallows_plan_write_error :
    (∀ (sdk : SDK) (sort : List EC2Image → List EC2Image) (params : ShareParams) (w : World),
      (Run sdk sort params w).1 = (ScanForAMIs sdk w w.Config.SourceAccount).1.2) ∧
    (ScanForAMIs writeFailSDK sampleWorld sampleWorld.Config.SourceAccount).1.2 = none ∧
    writeFailSDK.WriteFile
      (ScanForAMIs writeFailSDK sampleWorld sampleWorld.Config.SourceAccount).2.trace
      dryParams.PlanFile "plan" = some "open plan.yaml: permission denied" ∧
    (Run writeFailSDK insertionSort dryParams sampleWorld).1 = none ∧
    (Run writeFailSDK insertionSort liveParams sampleWorld).1 = none ∧
    Event.ModifyImageAttribute (some 2) "p2" "222222222222" ∈
      (Run writeFailSDK insertionSort liveParams sampleWorld).2.trace ∧
    (Run marshalFailSDK insertionSort dryParams sampleWorld).1 = none ∧
    (Run shareFailSDK insertionSort liveParams twoGroupWorld).1 = none :=
  ⟨fun sdk sort params w => Run_error_eq_scan_error sdk sort params w,
    by decide, by decide, by decide, by decide, by decide, by decide, by decide⟩

/-! ## Validating an account against the remote identity -/

/-- C13, on the code: when the remote account reports no alias,
`ValidateAccount` does not return: indexing the empty alias list stops the
program. With an alias reported it returns `nil` when id and alias agree with
the configuration and an error when one of them differs or no session can be
made. -/
theorem ValidateAccount_panics_without_alias :
    noAliasSDK.ListAccountAliases [] (some 2) = .ok [] ∧
    (ValidateAccount noAliasSDK sampleWorld sampleTarget).1 = Outcome.panics ∧
    (ValidateAccount sampleSDK sampleWorld sampleTarget).1 = Outcome.returns none ∧
    (ValidateAccount sampleSDK sampleWorld { sampleTarget with ID := "333333333333" }).1 =
      Outcome.returns
        (some "account number does not match. Expected: 222222222222 got 333333333333") ∧
    (ValidateAccount sampleSDK sampleWorld { sampleTarget with Alias := "other" }).1 =
      Outcome.returns (some "account alias does not match. Expected: prod-target got other") ∧
    (ValidateAccount sampleSDK
        { sampleWorld with sessionFactory := NewAWSSessionFactory } sampleTarget).1 =
      Outcome.returns (some "master session not initialized - required to assume role") := by
  refine ⟨rfl, ?_, ?_, ?_, ?_, ?_⟩ <;> decide

/-! ## Listing: marker tags are stripped -/

theorem foldl_drop_eq {β : Type} (p : β → Bool) (l acc : List β) :
    l.foldl (fun result x => if p x = true then result else result ++ [x]) acc =
      acc ++ l.filter (fun x => !p x) := by
  induction l generalizing acc with
  | nil => simp
  | cons x xs ih =>
    by_cases hx : p x = true
    · simp [List.foldl_cons, ih, hx]
    · simp [List.foldl_cons, ih, hx]

theorem filterImageTags_eq (tags : List Tag) :
    filterImageTags tags =
      tags.filter (fun tag => !HasPrefix (StringValue tag.Key) ShareWithPrefix) := by
  unfold filterImageTags
  rw [foldl_drop_eq (fun tag : Tag => HasPrefix (StringValue tag.Key) ShareWithPrefix)]
  simp

theorem foldl_drop_map_eq {β γ : Type} (p : β → Bool) (f : β → γ) (l : List β) (acc : List γ) :
    l.foldl (fun result x => if p x = true then result else result ++ [f x]) acc =
      acc ++ (l.filter (fun x => !p x)).map f := by
  induction l generalizing acc with
  | nil => simp
  | cons x xs ih =>
    by_cases hx : p x = true
    · simp [List.foldl_cons, ih, hx]
    · simp [List.foldl_cons, ih, hx]

theorem filterSnapshotTags_eq (tagsOutput : List TagDescription) :
    filterSnapshotTags tagsOutput =
      (tagsOutput.filter
        (fun tagDesc => !HasPrefix (StringValue tagDesc.Key) ShareWithPrefix)).map
        (fun tagDesc => ({ Key := tagDesc.Key, Value := tagDesc.Value } : Tag)) := by
  unfold filterSnapshotTags
  rw [foldl_drop_map_eq
    (fun tagDesc : TagDescription => HasPrefix (StringValue tagDesc.Key) ShareWithPrefix)
    (fun tagDesc => ({ Key := tagDesc.Key, Value := tagDesc.Value } : Tag))]
  simp

theorem GoMap.mem_keys_of_get? {κ ν : Type} [DecidableEq κ] (m : List (κ × ν)) (k : κ) (v : ν)
    (h : GoMap.get? m k = some v) : k ∈ GoMap.keys m := by
  unfold GoMap.get? at h
  cases hf : m.find? (fun e => decide (e.1 = k)) with
  | none => rw [hf] at h; simp at h
  | some e =>
    have hk : e.1 = k := by simpa using List.find?_some hf
    have hm : e ∈ m := List.mem_of_find?_eq_some hf
    unfold GoMap.keys
    rw [← hk]
    exact List.mem_map_of_mem _ hm

theorem GoMap.get?_of_mem_keys {κ ν : Type} [DecidableEq κ] (m : List (κ × ν)) (k : κ)
    (h : k ∈ GoMap.keys m) : ∃ v, GoMap.get? m k = some v := by
  unfold GoMap.keys at h
  obtain ⟨e, he, hk⟩ := List.mem_map.1 h
  unfold GoMap.get?
  cases hf : m.find? (fun e => decide (e.1 = k)) with
  | none =>
    rw [List.find?_eq_none] at hf
    have := hf e he
    simp [hk] at this
  | some x => exact ⟨x.2, rfl⟩

/-- The loop over the block devices, when no `DescribeTags` fails: the map
has an entry for exactly the snapshots listed, and every entry is the answer
of a `DescribeTags` call for that snapshot, without the tags whose key starts
with `ShareWithPrefix`. -/
theorem scanBlockDevices_spec (sdk : SDK) (svc : Option Session)
    (devices : List (Option BlockDeviceMapping)) (snapshots : List String)
    (snapshotTags : List (String × List Tag)) (trace : List Event)
    (snapshots2 : List String) (snapshotTags2 : List (String × List Tag)) (trace2 : List Event)
    (h : scanBlockDevices sdk svc devices snapshots snapshotTags trace =
      (none, snapshots2, snapshotTags2, trace2))
    (hgood : ∀ s v, GoMap.get? snapshotTags s = some v →
      ∃ t resp, sdk.DescribeTags t svc s = .ok resp ∧ v = filterSnapshotTags resp)
    (hkeys : ∀ s, s ∈ GoMap.keys snapshotTags ↔ s ∈ snapshots) :
    (∀ s v, GoMap.get? snapshotTags2 s = some v →
      ∃ t resp, sdk.DescribeTags t svc s = .ok resp ∧ v = filterSnapshotTags resp) ∧
    (∀ s, s ∈ GoMap.keys snapshotTags2 ↔ s ∈ snapshots2) := by
  induction devices generalizing snapshots snapshotTags trace with
  | nil =>
    unfold scanBlockDevices at h
    simp only [Prod.mk.injEq, true_and] at h
    obtain ⟨h1, h2, _⟩ := h
    subst h1 h2
    exact ⟨hgood, hkeys⟩
  | cons d rest ih =>
    unfold scanBlockDevices at h
    cases hd : d.bind BlockDeviceMapping.Ebs with
    | none =>
      rw [hd] at h
      exact ih _ _ _ h hgood hkeys
    | some ebs =>
      rw [hd] at h
      simp only [] at h
      cases hresp : sdk.DescribeTags trace svc (StringValue ebs.SnapshotId) with
      | error err =>
        rw [hresp] at h
        simp at h
      | ok tagsOutput =>
        rw [hresp] at h
        simp only [] at h
        apply ih _ _ _ h
        · intro s v hv
          rw [GoMap.get?_set] at hv
          by_cases hs : s = StringValue ebs.SnapshotId
          · rw [if_pos hs] at hv
            cases hv
            exact ⟨trace, tagsOutput, by rw [hs]; exact hresp, rfl⟩
          · rw [if_neg hs] at hv
            exact hgood s v hv
        · intro s
          rw [GoMap.mem_keys_set, List.mem_append, hkeys s, List.mem_singleton]
          exact or_comm


theorem listImages_spec (sdk : SDK) (svc : Option Session) (outs : List ImageDescription)
    (images images2 : List EC2Image) (trace trace2 : List Event)
    (h : listImages sdk svc outs images trace = ((images2, none), trace2)) :
    ∃ listed, images2 = images ++ listed ∧ List.Forall₂ (Listed sdk svc) outs listed := by
  induction outs generalizing images trace with
  | nil =>
    unfold listImages at h
    simp only [Prod.mk.injEq, and_true] at h
    exact ⟨[], by simp [h.1], List.Forall₂.nil⟩
  | cons out rest ih =>
    unfold listImages at h
    rcases hs : scanBlockDevices sdk svc out.BlockDeviceMappings [] [] trace with
      ⟨err, snapshots, snapshotTags, trace1⟩
    rw [hs] at h
    cases err with
    | some e => simp at h
    | none =>
      simp only [] at h
      obtain ⟨listed, hl, hf⟩ := ih _ _ h
      have hspec := scanBlockDevices_spec sdk svc out.BlockDeviceMappings [] [] trace
        snapshots snapshotTags trace1 hs
        (by intro s v hv; simp [GoMap.get?] at hv)
        (by intro s; simp [GoMap.keys])
      rw [List.append_assoc] at hl
      refine ⟨_, hl, ?_⟩
      rw [List.singleton_append]
      refine List.Forall₂.cons ?_ hf
      refine ⟨rfl, filterImageTags_eq _, hspec.2, ?_⟩
      intro s hsmem
      obtain ⟨v, hv⟩ := GoMap.get?_of_mem_keys snapshotTags s ((hspec.2 s).2 hsmem)
      obtain ⟨t, resp, hresp, hveq⟩ := hspec.1 s v hv
      refine ⟨t, resp, hresp, ?_⟩
      show GoMap.get? snapshotTags s = _
      rw [hv, hveq, filterSnapshotTags_eq]

theorem marker_key_stripped (name : String) :
    HasPrefix (ShareWithPrefix ++ "-" ++ name) ShareWithPrefix = true := by
  rw [String.append_assoc]
  exact HasPrefix_append _ _

/-- C14: when `ListAMIs` returns without error, it returns one image per
image of the `DescribeImages` response, in order; the tags of each are
exactly the remote tags of the image whose key does not start with
`ShareWith`, and the tags held for each of its snapshots are exactly the tags
a `DescribeTags` call answered for that snapshot whose key does not start
with `ShareWith`. No tag kept has the marker key `ShareWith-<alias>` that
`Run` writes, for any alias. -/
theorem ListAMIs_strips_markers (sdk : SDK) (sess : Option Session) (trace trace2 : List Event)
    (images : List EC2Image) (h : ListAMIs sdk sess trace = ((images, none), trace2)) :
    (∃ outs, sdk.DescribeImages trace sess = .ok outs ∧
      List.Forall₂ (Listed sdk sess) outs images) ∧
    ∀ image ∈ images, ∀ name : String,
      (∀ tag ∈ image.tags, tag.Key ≠ some (ShareWithPrefix ++ "-" ++ name)) ∧
      ∀ s tags, GoMap.get? image.snapshotTags s = some tags →
        ∀ tag ∈ tags, tag.Key ≠ some (ShareWithPrefix ++ "-" ++ name) := by
  unfold ListAMIs at h
  simp only [] at h
  cases hresp : sdk.DescribeImages trace sess with
  | error err =>
    rw [hresp] at h
    simp at h
  | ok outs =>
    rw [hresp] at h
    simp only [] at h
    obtain ⟨listed, hl, hf⟩ := listImages_spec sdk sess outs [] images _ _ h
    simp only [List.nil_append] at hl
    subst hl
    refine ⟨⟨outs, rfl, hf⟩, ?_⟩
    intro image himage name
    obtain ⟨out, _, hlisted⟩ : ∃ out, out ∈ outs ∧ Listed sdk sess out image := by
      clear h hresp
      induction hf with
      | nil => simp at himage
      | cons hhead _ ih =>
        rcases List.mem_cons.1 himage with e | e
        · subst e
          exact ⟨_, by simp, hhead⟩
        · obtain ⟨o, ho, hlo⟩ := ih e
          exact ⟨o, by simp [ho], hlo⟩
    obtain ⟨_, htags, hkeys, hsnap⟩ := hlisted
    constructor
    · intro tag htag hkey
      rw [htags, List.mem_filter] at htag
      have hm := marker_key_stripped name
      rw [hkey] at htag
      simp only [StringValue, hm, Bool.not_true] at htag
      exact absurd htag.2 (by simp)
    · intro s tags hget tag htag hkey
      have hsmem : s ∈ image.snapshots := (hkeys s).1 (GoMap.mem_keys_of_get? _ _ _ hget)
      obtain ⟨t, resp, _, hval⟩ := hsnap s hsmem
      rw [hget] at hval
      cases hval
      rw [List.mem_map] at htag
      obtain ⟨d, hd, hdt⟩ := htag
      rw [List.mem_filter] at hd
      have hm := marker_key_stripped name
      have hk : d.Key = some (ShareWithPrefix ++ "-" ++ name) := by
        rw [← hdt] at hkey
        exact hkey
      rw [hk] at hd
      simp only [StringValue, hm, Bool.not_true] at hd
      exact absurd hd.2 (by simp)

theorem ListAMIs_strips_markers_witness :
    ListAMIs sampleSDK (some 2) [] =
      (((ListAMIs sampleSDK (some 2) []).1.1, none), (ListAMIs sampleSDK (some 2) []).2) ∧
    (ListAMIs sampleSDK (some 2) []).1.1.map
      (fun image => (image.id, image.tags, image.snapshotTags)) =
      [("p1", [{ Key := some "Env", Value := some "prod" }], [("snap-p1", [])]),
       ("p2", [{ Key := some "Env", Value := some "prod" }], [("snap-p2", [])]),
       ("d1", [{ Key := some "Env", Value := some "dev" }], [("snap-d1", [])])] ∧
    ((∃ outs, sampleSDK.DescribeImages [] (some 2) = .ok outs ∧
      List.Forall₂ (Listed sampleSDK (some 2)) outs (ListAMIs sampleSDK (some 2) []).1.1) ∧
    ∀ image ∈ (ListAMIs sampleSDK (some 2) []).1.1, ∀ name : String,
      (∀ tag ∈ image.tags, tag.Key ≠ some (ShareWithPrefix ++ "-" ++ name)) ∧
      ∀ s tags, GoMap.get? image.snapshotTags s = some tags →
        ∀ tag ∈ tags, tag.Key ≠ some (ShareWithPrefix ++ "-" ++ name)) :=
  ⟨by decide, by decide,
    ListAMIs_strips_markers sampleSDK (some 2) [] (ListAMIs sampleSDK (some 2) []).2
      (ListAMIs sampleSDK (some 2) []).1.1 (by decide)⟩

/-! ## Ties between the latest images -/

theorem sinkLeft_filter_date {α : Type} [Image α] (x : α) (l : List α) (d : Time) :
    (sinkLeft x l).filter (fun a => decide (Image.Date a = d)) =
      if Image.Date x = d then x :: l.filter (fun a => decide (Image.Date a = d))
      else l.filter (fun a => decide (Image.Date a = d)) := by
  induction l with
  | nil =>
    by_cases hx : Image.Date x = d
    · simp [sinkLeft, hx]
    · simp [sinkLeft, hx]
  | cons y ys ih =>
    unfold sinkLeft
    by_cases hless : Less x y = true
    · have hlt : Image.Date x < Image.Date y := by simpa [Less, Before] using hless
      rw [if_pos hless, List.filter_cons, ih]
      by_cases hx : Image.Date x = d
      · have hy : ¬ Image.Date y = d := by
          intro e
          rw [hx, e] at hlt
          exact lt_irrefl _ hlt
        simp [hx, hy]
      · by_cases hy : Image.Date y = d
        · simp [hx, hy]
        · simp [hx, hy]
    · rw [if_neg hless]
      by_cases hx : Image.Date x = d
      · simp [hx, List.filter_cons]
      · simp [hx, List.filter_cons]

theorem foldl_sinkLeft_filter_date {α : Type} [Image α] (l acc : List α) (d : Time) :
    (l.foldl (fun sorted x => sinkLeft x sorted) acc).filter
        (fun a => decide (Image.Date a = d)) =
      (l.filter (fun a => decide (Image.Date a = d))).reverse ++
        acc.filter (fun a => decide (Image.Date a = d)) := by
  induction l generalizing acc with
  | nil => simp
  | cons x xs ih =>
    rw [List.foldl_cons, ih, sinkLeft_filter_date]
    by_cases hx : Image.Date x = d
    · simp [hx, List.filter_cons]
    · simp [hx, List.filter_cons]

/-- The insertion sort is stable. -/
theorem insertionSort_keeps_equal_order {α : Type} [Image α] :
    KeepsEqualOrder (insertionSort : List α → List α) := by
  intro l d
  unfold insertionSort
  rw [List.filter_reverse, foldl_sinkLeft_filter_date]
  simp

theorem getLast?_filter_of_last {β : Type} (p : β → Bool) (l : List β) (z : β)
    (hl : l.getLast? = some z) (hz : p z = true) : (l.filter p).getLast? = some z := by
  obtain ⟨ys, rfl⟩ := List.getLast?_eq_some_iff.1 hl
  rw [List.filter_append]
  simp [hz]

/-- With a sort that meets the contract and is stable, `ApplyFilters` returns
the last of the matching images of latest date. -/
theorem last_max_of_stable {α : Type} [Image α] (sort : List α → List α)
    (hsort : SortsByLess sort) (hstable : KeepsEqualOrder sort) (pre post : List α) (x : α)
    (F : List Filter) (hx : ∀ f ∈ F, Image.Match x f = true)
    (hmax : ∀ y ∈ pre ++ x :: post, (∀ f ∈ F, Image.Match y f = true) →
      Image.Date y ≤ Image.Date x)
    (hlast : ∀ y ∈ post, (∀ f ∈ F, Image.Match y f = true) → Image.Date y ≠ Image.Date x) :
    ApplyFilters sort (pre ++ x :: post) F = [x] := by
  have hxm : matchesAll x F = true := (matchesAll_iff x F).2 hx
  have hm : matching (pre ++ x :: post) F =
      pre.filter (fun image => matchesAll image F) ++
        x :: post.filter (fun image => matchesAll image F) := by
    rw [matching_eq_filter, List.filter_append, List.filter_cons, if_pos hxm]
  have hxmem : x ∈ sort (matching (pre ++ x :: post) F) := by
    rw [(hsort.perm _).mem_iff, hm]
    simp
  obtain ⟨z, hz⟩ : ∃ z, (sort (matching (pre ++ x :: post) F)).getLast? = some z := by
    cases hl : (sort (matching (pre ++ x :: post) F)).getLast? with
    | some z => exact ⟨z, rfl⟩
    | none =>
      rw [List.getLast?_eq_none_iff] at hl
      rw [hl] at hxmem
      simp at hxmem
  have hzmem : z ∈ matching (pre ++ x :: post) F :=
    (hsort.perm _).mem_iff.1 (List.mem_of_getLast?_eq_some hz)
  have hzS := (mem_matching _ F z).1 hzmem
  have hle : Image.Date z ≤ Image.Date x := hmax z hzS.1 hzS.2
  have hge : Image.Date x ≤ Image.Date z :=
    (Less_eq_false_iff z x).1 (last_not_Less _ z (hsort.ordered _) hz x hxmem)
  have hdate : Image.Date z = Image.Date x := le_antisymm hle hge
  have h1 := getLast?_filter_of_last (fun a => decide (Image.Date a = Image.Date x)) _ z hz
    (by simp [hdate])
  rw [hstable, hm, List.filter_append, List.filter_cons] at h1
  have hpost : (post.filter (fun image => matchesAll image F)).filter
      (fun a => decide (Image.Date a = Image.Date x)) = [] := by
    rw [List.filter_eq_nil_iff]
    intro y hy
    rw [List.mem_filter] at hy
    have := hlast y hy.1 ((matchesAll_iff y F).1 hy.2)
    simp [this]
  rw [hpost] at h1
  simp only [decide_True, if_true, List.getLast?_concat] at h1
  have hzx : z = x := by
    cases h1
    rfl
  rw [ApplyFilters_eq, hz, hzx]
  rfl

/-- On a slice of at most 12 elements `sort.Sort` is the insertion sort. -/
theorem goSort_short {α : Type} [Image α] (fb : Fallbacks α) (l : List α)
    (h : l.length ≤ 12) : goSort fb l = insertionSort l := by
  unfold goSort
  simp only []
  split
  · rename_i h1
    match l, h1 with
    | [], _ => rfl
    | [x], _ => rfl
    | _ :: _ :: _, h1 => simp at h1
  · unfold pdqsort
    simp only [Nat.sub_zero]
    rw [if_pos h]
    unfold insertionSortRange
    simp

theorem pdqsort_short {α : Type} [Image α] (fb : Fallbacks α) (rounds : Nat) (data : List α)
    (a b limit : Nat) (wb wp : Bool) (h : b - a ≤ 12) :
    pdqsort fb (rounds + 1) data a b limit wb wp = insertionSortRange data a b := by
  rw [pdqsort]
  simp only []
  rw [if_pos h]

/-- The run of `pdqsort` on the thirteen images: one `partition` around the
fourth image, then an insertion sort of each side. -/
theorem pdqsort_thirteen (fb : Fallbacks EC2Image) :
    pdqsort fb 14 thirteenImages 0 13 4 true true =
      insertionSortRange (insertionSortRange (partition thirteenImages 0 13 3).1 10 13) 0 9 := by
  have hc : choosePivot thirteenImages 0 13 = (3, sortedHint.unknownHint) := by decide
  have hmid : (partition thirteenImages 0 13 3).2.1 = 9 := by decide
  rw [pdqsort]
  simp only [if_true, if_false, ite_true, ite_false, true_and, hc, reduceCtorEq, Nat.sub_zero,
    Nat.lt_irrefl, false_and, hmid]
  simp +decide only [pdqsort_short, if_true, if_false, ite_true, ite_false]

/-- C15, as the claim states it, fails: `sort.Sort` is not stable. Of
thirteen images that all match, the second and the sixth of which share the
latest date, `ApplyFilters` returns the second, not the sixth: `partition`
exchanges the second image with the last one. The sorted slice is an ordered
rearrangement of the input, and neither fallback routine is reached. -/
theorem ApplyFilters_tie_counterexample :
    thirteenImages =
      [sampleImage "i0" 50 "prod", sampleImage "a" 90 "prod", sampleImage "i2" 10 "prod",
       sampleImage "i3" 70 "prod", sampleImage "i4" 20 "prod"] ++
      sampleImage "b" 90 "prod" ::
        [sampleImage "i6" 60 "prod", sampleImage "i7" 30 "prod", sampleImage "i8" 40 "prod",
         sampleImage "i9" 80 "prod", sampleImage "i10" 15 "prod", sampleImage "i11" 25 "prod",
         sampleImage "i12" 35 "prod"] ∧
    (∀ y ∈ thirteenImages, Image.Date y ≤ Image.Date (sampleImage "b" 90 "prod")) ∧
    Image.Date (sampleImage "a" 90 "prod") = Image.Date (sampleImage "b" 90 "prod") ∧
    (∀ fb : Fallbacks EC2Image,
      (goSort fb thirteenImages).map EC2Image.id =
        ["i2", "i10", "i4", "i11", "i7", "i12", "i8", "i0", "i6", "i3", "i9", "b", "a"] ∧
      (goSort fb thirteenImages).Perm thirteenImages ∧
      (goSort fb thirteenImages).Pairwise (fun x y => Less y x = false) ∧
      ApplyFilters (goSort fb) thirteenImages [] = [sampleImage "a" 90 "prod"] ∧
      ApplyFilters (goSort fb) thirteenImages [] ≠ [sampleImage "b" 90 "prod"]) := by
  refine ⟨by decide, by decide, by decide, ?_⟩
  intro fb
  have hsorted : goSort fb thirteenImages =
      [sampleImage "i2" 10 "prod", sampleImage "i10" 15 "prod", sampleImage "i4" 20 "prod",
       sampleImage "i11" 25 "prod", sampleImage "i7" 30 "prod", sampleImage "i12" 35 "prod",
       sampleImage "i8" 40 "prod", sampleImage "i0" 50 "prod", sampleImage "i6" 60 "prod",
       sampleImage "i3" 70 "prod", sampleImage "i9" 80 "prod", sampleImage "b" 90 "prod",
       sampleImage "a" 90 "prod"] := by
    have hgo : goSort fb thirteenImages = pdqsort fb 14 thirteenImages 0 13 4 true true := by
      unfold goSort
      have hlen : thirteenImages.length = 13 := by decide
      have hbits : bitsLen 13 13 = 4 := by decide
      have hn : ¬ 13 ≤ 1 := by decide
      simp only [hlen, hbits, if_neg hn, Nat.reduceAdd]
    rw [hgo, pdqsort_thirteen]
    decide
  have hmatching : matching thirteenImages [] = thirteenImages := by decide
  have hresult : ApplyFilters (goSort fb) thirteenImages [] = [sampleImage "a" 90 "prod"] := by
    rw [ApplyFilters_eq, hmatching, hsorted]
    rfl
  refine ⟨?_, ?_, ?_, hresult, ?_⟩
  · rw [hsorted]; decide
  · rw [hsorted]; decide
  · rw [hsorted]; decide
  · rw [hresult]; decide

/-- C15, amended: when several images that match every filter share the
latest date, `ApplyFilters` returns one of them (given that `sort.Sort` has
sorted the matching images); when at most 12 images match every filter, it
returns the one of them that occurs last in the list, because `sort.Sort`
sorts a slice of at most 12 elements by insertion sort, which is stable. -/
theorem ApplyFilters_tie_goSort {α : Type} [Image α] (fb : Fallbacks α) (pre post : List α)
    (x : α) (F : List Filter) (hx : ∀ f ∈ F, Image.Match x f = true)
    (hmax : ∀ y ∈ pre ++ x :: post, (∀ f ∈ F, Image.Match y f = true) →
      Image.Date y ≤ Image.Date x)
    (hlast : ∀ y ∈ post, (∀ f ∈ F, Image.Match y f = true) → Image.Date y ≠ Image.Date x)
    (hperm : (goSort fb (matching (pre ++ x :: post) F)).Perm (matching (pre ++ x :: post) F))
    (hord : (goSort fb (matching (pre ++ x :: post) F)).Pairwise
      (fun a b => Less b a = false)) :
    (∃ z, ApplyFilters (goSort fb) (pre ++ x :: post) F = [z] ∧ z ∈ pre ++ x :: post ∧
      (∀ f ∈ F, Image.Match z f = true) ∧ Image.Date z = Image.Date x) ∧
    ((matching (pre ++ x :: post) F).length ≤ 12 →
      ApplyFilters (goSort fb) (pre ++ x :: post) F = [x]) := by
  constructor
  · have hxmem : x ∈ goSort fb (matching (pre ++ x :: post) F) := by
      rw [hperm.mem_iff, mem_matching]
      exact ⟨by simp, hx⟩
    obtain ⟨z, hz⟩ : ∃ z, (goSort fb (matching (pre ++ x :: post) F)).getLast? = some z := by
      cases hl : (goSort fb (matching (pre ++ x :: post) F)).getLast? with
      | some z => exact ⟨z, rfl⟩
      | none =>
        rw [List.getLast?_eq_none_iff] at hl
        rw [hl] at hxmem
        simp at hxmem
    have hzS := (mem_matching _ F z).1 (hperm.mem_iff.1 (List.mem_of_getLast?_eq_some hz))
    have hle : Image.Date z ≤ Image.Date x := hmax z hzS.1 hzS.2
    have hge : Image.Date x ≤ Image.Date z :=
      (Less_eq_false_iff z x).1 (last_not_Less _ z hord hz x hxmem)
    refine ⟨z, ?_, hzS.1, hzS.2, le_antisymm hle hge⟩
    rw [ApplyFilters_eq, hz]
    rfl
  · intro hlen
    have h := last_max_of_stable insertionSort insertionSort_sorts
      insertionSort_keeps_equal_order pre post x F hx hmax hlast
    rw [ApplyFilters_eq] at h ⊢
    rw [goSort_short fb _ hlen]
    exact h

theorem ApplyFilters_tie_goSort_witness :
    [sampleImage "a" 9 "prod"] ++ sampleImage "b" 9 "prod" ::
        [sampleImage "c" 1 "prod", sampleImage "d" 2 "prod", sampleImage "e" 3 "prod",
         sampleImage "f" 4 "prod", sampleImage "g" 5 "prod"] = tieImages ∧
    (matching tieImages [⟨"tag:Env", "prod", false⟩]).length = 7 ∧
    ApplyFilters (goSort idleFallbacks) tieImages [⟨"tag:Env", "prod", false⟩] =
      [sampleImage "b" 9 "prod"] ∧
    ((∃ z, ApplyFilters (goSort idleFallbacks)
          ([sampleImage "a" 9 "prod"] ++ sampleImage "b" 9 "prod" ::
            [sampleImage "c" 1 "prod", sampleImage "d" 2 "prod", sampleImage "e" 3 "prod",
             sampleImage "f" 4 "prod", sampleImage "g" 5 "prod"])
          [⟨"tag:Env", "prod", false⟩] = [z] ∧
        z ∈ [sampleImage "a" 9 "prod"] ++ sampleImage "b" 9 "prod" ::
            [sampleImage "c" 1 "prod", sampleImage "d" 2 "prod", sampleImage "e" 3 "prod",
             sampleImage "f" 4 "prod", sampleImage "g" 5 "prod"] ∧
        (∀ f ∈ [(⟨"tag:Env", "prod", false⟩ : Filter)], Image.Match z f = true) ∧
        Image.Date z = Image.Date (sampleImage "b" 9 "prod")) ∧
      ((matching
          ([sampleImage "a" 9 "prod"] ++ sampleImage "b" 9 "prod" ::
            [sampleImage "c" 1 "prod", sampleImage "d" 2 "prod", sampleImage "e" 3 "prod",
             sampleImage "f" 4 "prod", sampleImage "g" 5 "prod"])
          [⟨"tag:Env", "prod", false⟩]).length ≤ 12 →
        ApplyFilters (goSort idleFallbacks)
          ([sampleImage "a" 9 "prod"] ++ sampleImage "b" 9 "prod" ::
            [sampleImage "c" 1 "prod", sampleImage "d" 2 "prod", sampleImage "e" 3 "prod",
             sampleImage "f" 4 "prod", sampleImage "g" 5 "prod"])
          [⟨"tag:Env", "prod", false⟩] = [sampleImage "b" 9 "prod"])) :=
  ⟨by decide, by decide, by decide,
    ApplyFilters_tie_goSort idleFallbacks [sampleImage "a" 9 "prod"]
      [sampleImage "c" 1 "prod", sampleImage "d" 2 "prod", sampleImage "e" 3 "prod",
       sampleImage "f" 4 "prod", sampleImage "g" 5 "prod"]
      (sampleImage "b" 9 "prod") [⟨"tag:Env", "prod", false⟩] (by decide) (by decide)
      (by decide) (by decide) (by decide)⟩

end AmiShare
